import Mathlib

/-!
# Verification of the Minefield Mahjong server core

Shallow embedding of the repository's Python sources:

* `src/rules/rules.py`   — hand decomposer and yaku predicates;
* `src/server/game.py`   — the two-player game state machine;
* `src/server/room.py` and `src/server-py/room.py` — the two room/replay layers.

Python tiles are two-character strings `'M1'`…`'X7'`; we embed them as a
suit/rank pair.  Lists stand for Python lists, `List.erase` for
`list.remove` (first occurrence), `List.dropLast` for `[:-1]` slicing.
-/

namespace Minefield

set_option maxRecDepth 40000

/-- The four tile suits `M`, `P`, `S`, `X` (honors), in the lexicographic
order of their characters. -/
inductive Suit where
  | M
  | P
  | S
  | X
deriving DecidableEq, Repr

/-- Numeric index of a suit character, used for the lexicographic tile order
(`'M' < 'P' < 'S' < 'X'`). -/
def Suit.idx : Suit → Nat
  | .M => 0
  | .P => 1
  | .S => 2
  | .X => 3

theorem Suit.idx_inj : ∀ {s t : Suit}, s.idx = t.idx → s = t := by
  intro s t h
  cases s <;> cases t <;> simp_all [Suit.idx]

/-- A tile: suit plus rank, embedding the Python two-character string
(`'M1'` becomes `(Suit.M, 1)`). -/
abbrev Tile := Suit × Nat

/-- The lexicographic order on tiles, matching Python string comparison of
the two-character codes. -/
def tile_le (a b : Tile) : Bool :=
  a.1.idx < b.1.idx || (a.1.idx = b.1.idx && a.2 ≤ b.2)

theorem tile_le_refl (a : Tile) : tile_le a a = true := by
  simp [tile_le]

theorem tile_le_total (a b : Tile) : tile_le a b = true ∨ tile_le b a = true := by
  simp only [tile_le, Bool.or_eq_true, Bool.and_eq_true, decide_eq_true_eq]
  omega

theorem tile_le_antisymm {a b : Tile} (h1 : tile_le a b = true)
    (h2 : tile_le b a = true) : a = b := by
  simp only [tile_le, Bool.or_eq_true, Bool.and_eq_true, decide_eq_true_eq] at h1 h2
  have hs : a.1 = b.1 := by
    apply Suit.idx_inj; omega
  have hn : a.2 = b.2 := by omega
  exact Prod.ext hs hn

theorem tile_le_trans {a b c : Tile} (h1 : tile_le a b = true)
    (h2 : tile_le b c = true) : tile_le a c = true := by
  simp only [tile_le, Bool.or_eq_true, Bool.and_eq_true, decide_eq_true_eq] at h1 h2 ⊢
  omega

/-- Sortedness of a tile list under the lexicographic order (the Python
sources always pass sorted hands). -/
def TSorted (l : List Tile) : Prop :=
  l.Pairwise (fun a b => tile_le a b = true)

instance : DecidablePred TSorted := fun l =>
  List.instDecidablePairwise l

/-- The group tags of `rules.py`: `('pon', t)`, `('chi', t)`, `('pair', t)`. -/
inductive GType where
  | pon
  | chi
  | pair
deriving DecidableEq, Repr

/-- A group: tag plus anchor tile, embedding the Python 2-tuples. -/
abbrev Group := GType × Tile

/-! ## `rules.py`: the decomposer -/

/-- `rules.find_pair`: scan adjacent equal tiles, skipping a position whose
next tile is also equal (`tiles[i] == tiles[i+1] == tiles[i+2]`), and yield
the pair with the remaining tiles (`tiles[:i] + tiles[i+2:]`).  The Python
index loop is rendered as structural recursion: the head case is position
`i = 0` and the recursive call shifts the window right by one. -/
def find_pair : List Tile → List (Group × List Tile)
  | a :: b :: rest =>
      let tail := (find_pair (b :: rest)).map (fun pr => (pr.1, a :: pr.2))
      if a = b then
        match rest with
        | c :: _ => if b = c then tail else ((GType.pair, a), rest) :: tail
        | [] => ((GType.pair, a), rest) :: tail
      else tail
  | _ => []

/-- `rules.begin_pon`: if the first three tiles are equal, yield the pon and
`tiles[3:]`. -/
def begin_pon : List Tile → List (Group × List Tile)
  | a :: b :: c :: rest =>
      if a = b ∧ b = c then [((GType.pon, a), rest)] else []
  | _ => []

/-- `rules.begin_chi`: anchor at `tiles[0]`; reject honors and ranks ≥ 8;
if both successors are present, remove the three run tiles (first
occurrences, as Python `list.remove`) and yield the chi. -/
def begin_chi : List Tile → List (Group × List Tile)
  | [] => []
  | t1 :: rest =>
      let tiles := t1 :: rest
      if t1.1 = Suit.X ∨ 8 ≤ t1.2 then []
      else
        let t2 : Tile := (t1.1, t1.2 + 1)
        let t3 : Tile := (t1.1, t1.2 + 2)
        if t2 ∈ tiles ∧ t3 ∈ tiles then
          [((GType.chi, t1), ((tiles.erase t1).erase t2).erase t3)]
        else []

/-- The inner `all_groups` generator of `rules.decompose_regular`: an empty
residue yields the empty group list, otherwise every pon/chi beginning is
extended by every decomposition of its residue.  Each step consumes three
tiles, so recursion is phrased with a fuel bounded by the list length
(`all_groups` below supplies `tiles.length`, which never runs out). -/
def all_groups_fuel : Nat → List Tile → List (List Group)
  | _, [] => [[]]
  | 0, _ :: _ => []
  | fuel + 1, t :: ts =>
      (begin_pon (t :: ts) ++ begin_chi (t :: ts)).flatMap
        (fun pr => (all_groups_fuel fuel pr.2).map (fun gs => pr.1 :: gs))

/-- `all_groups` from `rules.decompose_regular`. -/
def all_groups (tiles : List Tile) : List (List Group) :=
  all_groups_fuel tiles.length tiles

/-- `rules.decompose_regular`: choose the pair, then all group sequences of
the residue, pair first. -/
def decompose_regular (tiles : List Tile) : List (List Group) :=
  (find_pair tiles).flatMap
    (fun pr => (all_groups pr.2).map (fun gs => pr.1 :: gs))

/-- `rules.is_all_pairs`: tiles at even positions equal their successors.
(Python indexes `tiles[i+1]` for `i in range(0, len, 2)` and would fault on
an odd-length list; callers only pass 14 tiles.) -/
def is_all_pairs : List Tile → Bool
  | [] => true
  | [_] => false
  | a :: b :: rest => a = b && is_all_pairs rest

/-- `rules.is_terminal`: a number-suit tile of rank 1 or 9. -/
def is_terminal (t : Tile) : Bool :=
  t.1 ≠ Suit.X && (t.2 = 1 || t.2 = 9)

/-- `rules.is_honor`. -/
def is_honor (t : Tile) : Bool :=
  t.1 = Suit.X

/-- `rules.is_junchan_group`: pons and pairs must be of a terminal, chis
must be anchored at rank 1 or 7 of a number suit. -/
def is_junchan_group (g : Group) : Bool :=
  match g.1 with
  | GType.pon => is_terminal g.2
  | GType.pair => is_terminal g.2
  | GType.chi => g.2.1 ≠ Suit.X && (g.2.2 = 1 || g.2.2 = 7)

/-- `rules.suits_of_tiles`: the set of suit characters occurring in the
hand. -/
def suits_of_tiles (tiles : List Tile) : Finset Suit :=
  (tiles.map Prod.fst).toFinset

/-- The hand types `'regular'` and `'pairs'` of `rules.Hand`. -/
inductive HType where
  | regular
  | pairs
deriving DecidableEq, Repr

/-- The scoring-context dict passed as `options` (`Game.options`). -/
structure ROptions where
  fanpai_winds : List Tile
  dora_ind : Option Tile
  uradora_ind : Option Tile
  hotei : Bool
  ippatsu : Bool
deriving DecidableEq, Repr

/-- `rules.Hand`: 14 tiles, winning tile, interpretation type, decomposition
(regular hands only; `none` embeds Python `None`), scoring options. -/
structure Hand where
  tiles : List Tile
  wait : Tile
  type : HType
  groups : Option (List Group)
  options : ROptions
deriving DecidableEq, Repr

/-- `Hand.yaku_chinitsu` as written in the source:
`suits_of_tiles(self.tiles) == set(['X'])`. -/
def Hand.yaku_chinitsu (h : Hand) : Bool :=
  suits_of_tiles h.tiles = ({Suit.X} : Finset Suit)

/-- `Hand.yaku_junchan` as written in the source.  The second conjunct is
`any(type == 'chi' for t in self.groups)`: the generator binds only `t`, so
`type` refers to the Python builtin `type`, and `type == 'chi'` is always
false; the predicate is embedded accordingly. -/
def Hand.yaku_junchan (h : Hand) : Bool :=
  if h.type ≠ HType.regular then false
  else
    ((h.groups.getD []).all (fun g => is_junchan_group g)) &&
      ((h.groups.getD []).any (fun _ => false))

/-- `rules.all_hands`: every regular decomposition as a `'regular'` hand,
plus a `'pairs'` hand when `is_all_pairs` holds.  (The kokushi branch is
commented out in the source.) -/
def all_hands (tiles : List Tile) (wait : Tile) (options : ROptions) : List Hand :=
  (decompose_regular tiles).map
      (fun gs => Hand.mk tiles wait HType.regular (some gs) options)
    ++ (if is_all_pairs tiles then [Hand.mk tiles wait HType.pairs none options] else [])

/-! ## Concrete tiles (the 34 tile codes) -/

def M1 : Tile := (Suit.M, 1)
def M2 : Tile := (Suit.M, 2)
def M3 : Tile := (Suit.M, 3)
def M4 : Tile := (Suit.M, 4)
def M5 : Tile := (Suit.M, 5)
def M6 : Tile := (Suit.M, 6)
def M7 : Tile := (Suit.M, 7)
def M8 : Tile := (Suit.M, 8)
def M9 : Tile := (Suit.M, 9)
def P1 : Tile := (Suit.P, 1)
def P2 : Tile := (Suit.P, 2)
def P3 : Tile := (Suit.P, 3)
def P4 : Tile := (Suit.P, 4)
def P5 : Tile := (Suit.P, 5)
def P6 : Tile := (Suit.P, 6)
def P7 : Tile := (Suit.P, 7)
def P8 : Tile := (Suit.P, 8)
def P9 : Tile := (Suit.P, 9)
def S1 : Tile := (Suit.S, 1)
def S2 : Tile := (Suit.S, 2)
def S3 : Tile := (Suit.S, 3)
def S4 : Tile := (Suit.S, 4)
def S5 : Tile := (Suit.S, 5)
def S6 : Tile := (Suit.S, 6)
def S7 : Tile := (Suit.S, 7)
def S8 : Tile := (Suit.S, 8)
def S9 : Tile := (Suit.S, 9)
def X1 : Tile := (Suit.X, 1)
def X2 : Tile := (Suit.X, 2)
def X3 : Tile := (Suit.X, 3)
def X4 : Tile := (Suit.X, 4)
def X5 : Tile := (Suit.X, 5)
def X6 : Tile := (Suit.X, 6)
def X7 : Tile := (Suit.X, 7)

/-- An empty scoring context (used for hands scored outside a game). -/
def noOptions : ROptions :=
  { fanpai_winds := [], dora_ind := none, uradora_ind := none,
    hotei := false, ippatsu := false }

/-! ## C5: the chinitsu predicate -/

/-- The all-manzu hand `M1 M2 M2 M3 M3 M3 M3 M4 M4 M4 M5 M5 M6 M6` from the
source's own `HandTestCase.test_yaku`, which expects `chinitsu`. -/
def c5tiles : List Tile :=
  [M1, M2, M2, M3, M3, M3, M3, M4, M4, M4, M5, M5, M6, M6]

/-- C5: `yaku_chinitsu` compares the suit set with `{'X'}`, i.e. it fires
only on an all-honor hand.  On the source's own test hand — which uses
exactly the one number suit `M` and no honors, so the claimed condition
holds — the predicate returns `false`, contradicting the test expectation
of `chinitsu`. -/
theorem C5_chinitsu_code_bug :
    (Hand.mk c5tiles M1 HType.regular
        (some [(GType.pair, M6), (GType.chi, M1), (GType.chi, M2),
               (GType.chi, M3), (GType.chi, M4)]) noOptions).yaku_chinitsu = false
    ∧ suits_of_tiles c5tiles = ({Suit.M} : Finset Suit)
    ∧ (c5tiles.all (fun t => !is_honor t)) = true := by
  constructor
  · decide
  constructor
  · decide
  · decide

/-! ## C6: the junchan predicate -/

/-- The hand `M1 M1 M1 M1 M2 M2 M2 M2 M3 M3 M3 M3 M9 M9` from the source's
own `HandTestCase.test_yaku`, which expects `junchan` among its yaku. -/
def c6tiles : List Tile :=
  [M1, M1, M1, M1, M2, M2, M2, M2, M3, M3, M3, M3, M9, M9]

/-- A decomposition of `c6tiles` in which every group is a junchan group and
one group is a chi. -/
def c6groups : List Group :=
  [(GType.pair, M9), (GType.chi, M1), (GType.chi, M1), (GType.chi, M1), (GType.chi, M1)]

/-- C6: in `yaku_junchan` the generator `any(type == 'chi' for t in
self.groups)` never binds `type`, so it compares the Python builtin `type`
with `'chi'` and is always false.  On a decomposition actually produced by
`decompose_regular` for the source's own junchan test hand — every group
contains a terminal, no honors appear, and one group is a chi — the yaku is
nevertheless not awarded. -/
theorem C6_junchan_code_bug :
    c6groups ∈ decompose_regular c6tiles
    ∧ (Hand.mk c6tiles M1 HType.regular (some c6groups) noOptions).yaku_junchan = false
    ∧ (c6groups.all (fun g => is_junchan_group g)) = true
    ∧ (c6groups.any (fun g => g.1 = GType.chi)) = true
    ∧ (c6tiles.all (fun t => !is_honor t)) = true := by
  refine ⟨by decide, by decide, by decide, by decide, by decide⟩

/-! ## C4: the seven-pairs interpretation -/

/-- Tiles that are a concatenation of pairs: `l.flatMap (fun t => [t, t])`
lists each chosen tile twice, consecutively — the spec's "seven pairs" shape
for a 14-tile hand (distinctness is a separate condition). -/
theorem length_pairup (l : List Tile) :
    (l.flatMap (fun t => [t, t])).length = 2 * l.length := by
  induction l with
  | nil => simp
  | cons a l ih => simp [List.flatMap_cons, ih]; omega

/-- `is_all_pairs` holds exactly on concatenations of pairs (counted with
multiplicity: nothing forces the pairs to be distinct). -/
theorem is_all_pairs_iff :
    ∀ tiles : List Tile,
      is_all_pairs tiles = true ↔ ∃ l : List Tile, tiles = l.flatMap (fun t => [t, t])
  | [] => by
      constructor
      · intro _; exact ⟨[], by simp⟩
      · intro _; rfl
  | [a] => by
      constructor
      · intro h; simp [is_all_pairs] at h
      · rintro ⟨l, hl⟩
        have := congrArg List.length hl
        rw [length_pairup] at this
        simp at this; omega
  | a :: b :: rest => by
      have ih := is_all_pairs_iff rest
      constructor
      · intro h
        simp only [is_all_pairs, Bool.and_eq_true, decide_eq_true_eq] at h
        obtain ⟨l, hl⟩ := ih.mp h.2
        exact ⟨a :: l, by simp [List.flatMap_cons, ← h.1, hl]⟩
      · rintro ⟨l, hl⟩
        match l with
        | [] => simp at hl
        | t :: l' =>
            simp only [List.flatMap_cons, List.cons_append, List.nil_append,
              List.cons.injEq] at hl
            obtain ⟨ha, hb, hrest⟩ := hl
            simp only [is_all_pairs, Bool.and_eq_true, decide_eq_true_eq]
            exact ⟨ha.trans hb.symm, ih.mpr ⟨l', hrest⟩⟩

/-- A quad-containing pairing hand: `M1` appears four times. -/
def c4quad : List Tile :=
  [M1, M1, M1, M1, M2, M2, M3, M3, M4, M4, M5, M5, M6, M6]

/-- C4 counterexample: `all_hands` yields a `'pairs'` interpretation for a
hand in which `M1` appears four times, although the hand does not consist of
seven *distinct* pairs — a quad is counted as two pairs by `is_all_pairs`,
contrary to the claim. -/
theorem C4_pairs_counterexample :
    ((all_hands c4quad M1 noOptions).any
        (fun h => decide (h.type = HType.pairs)) = true)
    ∧ c4quad.count M1 = 4
    ∧ ¬ ∃ l : List Tile, l.Nodup ∧ l.length = 7
          ∧ c4quad = l.flatMap (fun t => [t, t]) := by
  refine ⟨by decide, by decide, ?_⟩
  rintro ⟨l, hnd, hlen7, heq⟩
  obtain ⟨a, l1, rfl⟩ : ∃ a l1, l = a :: l1 := by
    cases l with
    | nil => simp at hlen7
    | cons a l1 => exact ⟨a, l1, rfl⟩
  obtain ⟨b, l2, rfl⟩ : ∃ b l2, l1 = b :: l2 := by
    cases l1 with
    | nil => simp at hlen7
    | cons b l2 => exact ⟨b, l2, rfl⟩
  simp only [c4quad, List.flatMap_cons, List.cons_append, List.nil_append,
    List.cons.injEq] at heq
  obtain ⟨h1, h2, h3, -⟩ := heq
  subst h1
  rw [← h3] at hnd
  simp at hnd

/-- C4 amended: for every 14-tile hand, `all_hands` yields a `'pairs'`
interpretation iff the tiles are a concatenation of seven pairs counted with
multiplicity (so a tile may appear four times; distinctness is *not*
required by the code). -/
theorem C4_all_hands_pairs_amended (tiles : List Tile) (wait : Tile)
    (opts : ROptions) (hlen : tiles.length = 14) :
    ((all_hands tiles wait opts).any (fun h => decide (h.type = HType.pairs)) = true)
      ↔ ∃ l : List Tile, l.length = 7 ∧ tiles = l.flatMap (fun t => [t, t]) := by
  have hmain :
      ((all_hands tiles wait opts).any (fun h => decide (h.type = HType.pairs)) = true)
        ↔ is_all_pairs tiles = true := by
    unfold all_hands
    rw [List.any_append]
    simp only [Bool.or_eq_true]
    constructor
    · rintro (h | h)
      · exfalso
        rw [List.any_eq_true] at h
        obtain ⟨d, hdm, hd⟩ := h
        rw [List.mem_map] at hdm
        obtain ⟨gs, -, rfl⟩ := hdm
        simp at hd
      · by_cases hp : is_all_pairs tiles = true
        · exact hp
        · simp [hp] at h
    · intro hp
      right
      simp [hp]
  rw [hmain, is_all_pairs_iff]
  constructor
  · rintro ⟨l, hl⟩
    refine ⟨l, ?_, hl⟩
    have := congrArg List.length hl
    rw [length_pairup] at this
    omega
  · rintro ⟨l, -, hl⟩
    exact ⟨l, hl⟩

/-- A seven-distinct-pairs hand used to instantiate the amended C4 theorem. -/
def c4seven : List Tile :=
  [M1, M1, M2, M2, M3, M3, M4, M4, M5, M5, M6, M6, M7, M7]

/-- Witness for the amended C4 theorem at a concrete hand. -/
theorem C4_all_hands_pairs_amended_witness :
    c4seven.length = 14
    ∧ (((all_hands c4seven M1 noOptions).any
          (fun h => decide (h.type = HType.pairs)) = true)
        ↔ ∃ l : List Tile, l.length = 7 ∧ c4seven = l.flatMap (fun t => [t, t])) :=
  ⟨by decide, C4_all_hands_pairs_amended c4seven M1 noOptions (by decide)⟩

/-! ## `game.py`: the game state machine -/

/-- Modelled from the spec: `rules.ALL_TILES` is referenced by `game.py`
(`TILES = rules.ALL_TILES * 4`) but absent from `src/rules/rules.py`; the
spec fixes the tile set as the 34 distinct tiles in lexicographic order. -/
def ALL_TILES : List Tile :=
  (List.range 9).map (fun i => (Suit.M, i + 1))
    ++ (List.range 9).map (fun i => (Suit.P, i + 1))
    ++ (List.range 9).map (fun i => (Suit.S, i + 1))
    ++ (List.range 7).map (fun i => (Suit.X, i + 1))

/-- `game.TILES = rules.ALL_TILES * 4` (Python list repetition). -/
def TILES : List Tile := ALL_TILES ++ ALL_TILES ++ ALL_TILES ++ ALL_TILES

def PLAYER_TILES : Nat := 34
def DISCARDS : Nat := 17
def DISCARD_TIME_LIMIT : Nat := 15
def HAND_TIME_LIMIT : Nat := 180
def EXTRA_TIME : Nat := 10

/-- `game.SEAT_WINDS = ('X1', 'X3')`. -/
def SEAT_WINDS : Fin 2 → Tile := fun i => if i = 0 then X1 else X3

/-- Modelled from the spec: the object returned by `rules.best_hand`
(absent from `src/rules/rules.py`), reduced to the fields `game.py` reads:
`yaku`, `yakuman`, `dora()`, `limit()`. -/
structure HandResult where
  yaku : List String
  yakuman : Bool
  dora : Nat
  limit : Nat
deriving DecidableEq, Repr

/-- Modelled from the spec: `rules.waits` and `rules.best_hand` are called
by `game.py` but absent from `src/rules/rules.py`, and the spec leaves the
per-yaku fan table open ("standard riichi values; implementer may table
them"), so the two functions are an abstract interface over which the
game-level theorems quantify. -/
structure RulesModel where
  waits : List Tile → List Tile
  bestHand : List Tile → Tile → ROptions → HandResult

/-- Modelled from the spec: `rules.BASE_POINTS`, the points table indexed
by limit code (below mangan, mangan 8000, haneman 12000, baiman 16000,
sanbaiman 24000, yakuman 32000). -/
def BASE_POINTS : List Nat := [0, 8000, 12000, 16000, 24000, 32000]

/-- The outbound game events of `game.py` with their payloads. -/
inductive Event where
  | phase_one (tiles : List Tile) (dora_ind : Tile) (you : Fin 2) (east : Fin 2)
  | start_move (move_type : String) (time_limit : Int)
  | end_move
  | hand (hand : List Tile)
  | wait_for_phase_two
  | phase_two
  | discarded (player : Fin 2) (tile : Tile)
  | ron (player : Fin 2) (hand : List Tile) (tile : Tile) (yaku : List String)
      (yakuman : Bool) (dora : Nat) (points : Nat) (limit : Nat) (uradora_ind : Tile)
  | draw
  | abort (culprit : Fin 2) (description : String)
deriving DecidableEq, Repr

/-- Whether an event is a `ron` broadcast. -/
def Event.isRon : Event → Bool
  | .ron .. => true
  | _ => false

/-- Events emitted through the callback, tagged with the receiving seat. -/
abbrev Events := List (Fin 2 × Event)

/-- The mutable state of `game.Game`.  Python `None` hands become `none`;
`waits` starts as the empty list (Python `None`, only read in phase 2);
a pending move is `(move_type, deadline)`. -/
structure Game where
  east : Fin 2
  initial_tiles : Fin 2 → List Tile
  tiles : Fin 2 → List Tile
  dora_ind : Tile
  uradora_ind : Tile
  hand : Fin 2 → Option (List Tile)
  waits : Fin 2 → List Tile
  discards : Fin 2 → List Tile
  t : Nat
  moves : Fin 2 → Option (String × Nat)
  finished : Bool

/-- Python truthiness of a hand slot: `None` and `[]` are falsy (a stored
hand always has 13 tiles, so only `None` matters in practice). -/
def truthyHand : Option (List Tile) → Bool
  | none => false
  | some l => !l.isEmpty

/-- `Game.__init__` for a given (already shuffled) deck: each seat gets 34
tiles, the indicators are `deck[68]` and `deck[69]` (decks always have 136
tiles; out-of-range indexing is given an irrelevant default). -/
def Game.init (deck : List Tile) (east : Fin 2) : Game :=
  { east := east
    initial_tiles := fun i => if i = 0 then deck.take PLAYER_TILES
                              else (deck.drop PLAYER_TILES).take PLAYER_TILES
    tiles := fun i => if i = 0 then deck.take PLAYER_TILES
                      else (deck.drop PLAYER_TILES).take PLAYER_TILES
    dora_ind := deck.getD (PLAYER_TILES * 2) M1
    uradora_ind := deck.getD (PLAYER_TILES * 2 + 1) M1
    hand := fun _ => none
    waits := fun _ => []
    discards := fun _ => []
    t := 0
    moves := fun _ => none
    finished := false }

/-- `Game.phase`: 1 while some hand is unchosen, 2 until finished, else 3. -/
def Game.phase (g : Game) : Nat :=
  if truthyHand (g.hand 0) && truthyHand (g.hand 1) then
    if g.finished then 3 else 2
  else 1

/-- `Game.player_turn`: East on equal discard piles, the other seat
otherwise. -/
def Game.player_turn (g : Game) : Fin 2 :=
  if (g.discards 0).length = (g.discards 1).length then g.east else 1 - g.east

/-- `Game.abort`: broadcast `abort` to both seats, set `finished`, clear
pending moves. -/
def Game.abort (g : Game) (culprit : Fin 2) (description : String) : Game × Events :=
  ({ g with finished := true, moves := fun _ => none },
   [(0, .abort culprit description), (1, .abort culprit description)])

/-- Whether a pending move's deadline has passed (`self.t >= moves[i][1]`). -/
def deadlinePassed (t : Nat) : Option (String × Nat) → Bool
  | none => false
  | some (_, deadline) => deadline ≤ t

/-- `Game.beat`: advance time one second; time out seat 0's move first,
else seat 1's. -/
def Game.beat (g : Game) : Game × Events :=
  let g1 := { g with t := g.t + 1 }
  if deadlinePassed g1.t (g1.moves 0) then g1.abort 0 "time limit exceeded"
  else if deadlinePassed g1.t (g1.moves 1) then g1.abort 1 "time limit exceeded"
  else (g1, [])

/-- `Game.send_move`: re-emit the pending move (if any) with the remaining
time excluding the grace window; the remainder can be negative, hence the
integer payload. -/
def Game.send_move (g : Game) (player : Fin 2) : Events :=
  match g.moves player with
  | none => []
  | some (move_type, deadline) =>
      [(player, .start_move move_type ((deadline : Int) - (g.t : Int) - (EXTRA_TIME : Int)))]

/-- `Game.start_move`: record the pending move with its deadline and send
it.  (The source asserts the slot is free; on the traces considered here it
always is, and the assertion is not modelled.) -/
def Game.start_move (g : Game) (player : Fin 2) (move_type : String)
    (time_limit : Nat) : Game × Events :=
  let m := Function.update g.moves player (some (move_type, g.t + time_limit + EXTRA_TIME))
  let g1 := { g with moves := m }
  (g1, g1.send_move player)

/-- `Game.end_move`: clear the slot and notify the seat. -/
def Game.end_move (g : Game) (player : Fin 2) : Game × Events :=
  ({ g with moves := Function.update g.moves player none }, [(player, .end_move)])

/-- `Game.start`: send `phase_one` and open the `hand` move, seat 0 then
seat 1. -/
def Game.start (g : Game) : Game × Events :=
  let e0 : Fin 2 × Event := (0, .phase_one (g.initial_tiles 0) g.dora_ind 0 g.east)
  let r1 := g.start_move 0 "hand" HAND_TIME_LIMIT
  let e1 : Fin 2 × Event := (1, .phase_one (r1.1.initial_tiles 1) r1.1.dora_ind 1 r1.1.east)
  let r2 := r1.1.start_move 1 "hand" HAND_TIME_LIMIT
  (r2.1, e0 :: r1.2 ++ e1 :: r2.2)

/-- `Game.options`: scoring context for a seat; `player ^ east` selects the
seat wind, `hotei` is the double-17 exhaustion test, `ippatsu` is "opponent
has exactly one discard". -/
def Game.options (g : Game) (player : Fin 2) (uradora : Bool) : ROptions :=
  { fanpai_winds := [SEAT_WINDS (if player = g.east then 0 else 1)]
    dora_ind := some g.dora_ind
    uradora_ind := if uradora then some g.uradora_ind else none
    hotei := decide ((g.discards 0).length = DISCARDS ∧ (g.discards 1).length = DISCARDS)
    ippatsu := decide ((g.discards (1 - player)).length = 1) }

/-- `Game.furiten`: some wait occurs among the seat's own discards or the
opponent's discards without their most recent one (`[:-1]`); Python's `set`
is only used for membership, embedded as membership in the concatenation. -/
def Game.furiten (g : Game) (player : Fin 2) : Bool :=
  (g.waits player).any
    (fun w => decide (w ∈ g.discards player ++ (g.discards (1 - player)).dropLast))

/-- The tile-removal loop of `Game.on_hand`: remove each requested tile
(first occurrence); on a missing tile stop and report failure, keeping the
partially emptied pool exactly as the Python in-place loop does. -/
def remove_all (pool : List Tile) : List Tile → Bool × List Tile
  | [] => (true, pool)
  | t :: ts => if t ∈ pool then remove_all (pool.erase t) ts else (false, pool)

/-- Insertion of a tile into a sorted list (for Python `sorted`). -/
def tinsert (t : Tile) : List Tile → List Tile
  | [] => [t]
  | a :: rest => if tile_le t a then t :: a :: rest else a :: tinsert t rest

/-- Python `sorted` on tiles (insertion sort under the lexicographic
order). -/
def tsort (l : List Tile) : List Tile := l.foldr tinsert []

/-- `Game.on_hand`: validate phase, length 13, single submission and tile
availability; then store the hand, compute waits, close the move, echo the
hand, and either open East's first discard or tell the seat to wait. -/
def Game.on_hand (R : RulesModel) (g : Game) (player : Fin 2)
    (hand : List Tile) : Game × Events :=
  if g.phase ≠ 1 then g.abort player "on_hand: wrong phase"
  else if hand.length ≠ 13 then g.abort player "on_hand: len != 13"
  else if g.hand player ≠ none then g.abort player "on_hand: hand already sent"
  else
    let rm := remove_all (g.tiles player) hand
    let g1 := { g with tiles := Function.update g.tiles player rm.2 }
    if !rm.1 then g1.abort player "on_hand: tile not found in choices"
    else
      let g2 := { g1 with hand := Function.update g1.hand player (some hand),
                          waits := Function.update g1.waits player (R.waits hand) }
      let r3 := g2.end_move player
      let evHand : Fin 2 × Event := (player, .hand hand)
      if truthyHand (r3.1.hand 0) && truthyHand (r3.1.hand 1) then
        let r4 := r3.1.start_move r3.1.east "discard" DISCARD_TIME_LIMIT
        (r4.1, r3.2 ++ evHand :: (0, .phase_two) :: (1, .phase_two) :: r4.2)
      else
        (r3.1, r3.2 ++ [evHand, (player, .wait_for_phase_two)])

/-- `Game.check_ron`: score the opponent's 13 tiles plus the discard;
below mangan report failure without touching the state, otherwise rescore
with uradora, set `finished` and broadcast `ron` to both seats. -/
def Game.check_ron (R : RulesModel) (g : Game) (player : Fin 2) (tile : Tile) :
    Bool × Game × Events :=
  let full_hand := tsort ((g.hand (1 - player)).getD [] ++ [tile])
  let h1 := R.bestHand full_hand tile (g.options (1 - player) false)
  if h1.limit = 0 then (false, g, [])
  else
    let h2 := R.bestHand full_hand tile (g.options (1 - player) true)
    let ev : Event := .ron (1 - player) full_hand tile h2.yaku h2.yakuman h2.dora
        (BASE_POINTS.getD h2.limit 0) h2.limit g.uradora_ind
    (true, { g with finished := true }, [(0, ev), (1, ev)])

/-- `Game.on_discard`: validate phase, turn and tile; move the tile to the
discard pile, close the move, broadcast `discarded`; then try ron, then
the exhaustion draw, else open the next discard move. -/
def Game.on_discard (R : RulesModel) (g : Game) (player : Fin 2)
    (tile : Tile) : Game × Events :=
  if g.phase ≠ 2 then g.abort player "on_discard: wrong phase"
  else if g.player_turn ≠ player then g.abort player "on_discard: not your turn"
  else if tile ∉ g.tiles player then g.abort player "on_discard: tile not found in choices"
  else
    let g1 := { g with
      tiles := Function.update g.tiles player ((g.tiles player).erase tile),
      discards := Function.update g.discards player (g.discards player ++ [tile]) }
    let r2 := g1.end_move player
    let esd : Events := [(0, .discarded player tile), (1, .discarded player tile)]
    let ronTry :=
      if tile ∈ r2.1.waits (1 - player) ∧ r2.1.furiten (1 - player) = false then
        Game.check_ron R r2.1 player tile
      else (false, r2.1, [])
    if ronTry.1 then
      (ronTry.2.1, r2.2 ++ esd ++ ronTry.2.2)
    else
      let g3 := ronTry.2.1
      if (g3.discards 0).length = DISCARDS ∧ (g3.discards 1).length = DISCARDS then
        ({ g3 with finished := true }, r2.2 ++ esd ++ ronTry.2.2 ++ [(0, .draw), (1, .draw)])
      else
        let r4 := g3.start_move g3.player_turn "discard" DISCARD_TIME_LIMIT
        (r4.1, r2.2 ++ esd ++ ronTry.2.2 ++ r4.2)

/-- Reachability: a game freshly constructed from a 136-tile deck and
started, closed under the three externally callable handlers. -/
inductive Reachable (R : RulesModel) : Game → Prop where
  | start : ∀ (deck : List Tile) (east : Fin 2), deck.length = 136 →
      Reachable R ((Game.init deck east).start).1
  | on_hand : ∀ {g} (p : Fin 2) (h : List Tile), Reachable R g →
      Reachable R (Game.on_hand R g p h).1
  | on_discard : ∀ {g} (p : Fin 2) (t : Tile), Reachable R g →
      Reachable R (Game.on_discard R g p t).1
  | beat : ∀ {g}, Reachable R g → Reachable R g.beat.1

/-- In phase 2 the game is not finished and both hands are chosen. -/
theorem phase2_facts (g : Game) (h : g.phase = 2) :
    g.finished = false ∧ truthyHand (g.hand 0) = true ∧ truthyHand (g.hand 1) = true := by
  unfold Game.phase at h
  split_ifs at h with h1 h2
  · omega
  · refine ⟨by simpa using h2, ?_, ?_⟩
    · exact ((Bool.and_eq_true _ _).mp h1).1
    · exact ((Bool.and_eq_true _ _).mp h1).2
  · omega

/-! ## C3: furiten -/

/-- C3: a seat is furiten exactly when one of its waits occurs among its own
discards or among the opponent's discards without the opponent's single
most recent one. -/
theorem C3_furiten_iff (g : Game) (seat : Fin 2) (_hph : g.phase = 2) :
    g.furiten seat = true ↔
      ∃ w, w ∈ g.waits seat ∧
        (w ∈ g.discards seat ∨ w ∈ (g.discards (1 - seat)).dropLast) := by
  simp [Game.furiten, List.any_eq_true, List.mem_append]

/-- A concrete phase-2 state: seat 0 waits on `S5`, which the opponent has
discarded before their latest discard. -/
def c3game : Game :=
  { east := 0
    initial_tiles := fun _ => []
    tiles := fun _ => []
    dora_ind := M1
    uradora_ind := M2
    hand := fun i => if i = 0 then some [M1] else some [M2]
    waits := fun i => if i = 0 then [S5] else []
    discards := fun i => if i = 0 then [] else [S5, M1]
    t := 0
    moves := fun _ => none
    finished := false }

/-- Witness for C3 at a concrete phase-2 state. -/
theorem C3_furiten_iff_witness :
    c3game.phase = 2
    ∧ (c3game.furiten 0 = true ↔
        ∃ w, w ∈ c3game.waits 0 ∧
          (w ∈ c3game.discards 0 ∨ w ∈ (c3game.discards (1 - 0)).dropLast)) :=
  ⟨by decide, C3_furiten_iff c3game 0 (by decide)⟩

/-! ## C1: the ron broadcast -/

/-- The behaviour C1 requires of a valid phase-2 discard, phrased against
the pre-discard state `g`: `g1` is the state with the tile moved to the
discard pile and the mover's pending move closed; a ron is broadcast iff
the tile completes the opponent's wait, the opponent is not furiten, and
the best hand (scored without uradora) reaches at least mangan; in that
case the game finishes and both seats receive the full `ron` payload (with
the uradora-rescored hand); a waited-on but below-mangan discard produces
no ron and, short of exhaustion, the game continues with a pending move
for the next seat. -/
def RonSpec (R : RulesModel) (g : Game) (p : Fin 2) (tile : Tile) : Prop :=
  let g1 := { g with
    tiles := Function.update g.tiles p ((g.tiles p).erase tile),
    discards := Function.update g.discards p (g.discards p ++ [tile]),
    moves := Function.update g.moves p none }
  let full := tsort ((g.hand (1 - p)).getD [] ++ [tile])
  let h1 := R.bestHand full tile (g1.options (1 - p) false)
  let h2 := R.bestHand full tile (g1.options (1 - p) true)
  let out := Game.on_discard R g p tile
  let ronEv : Event := .ron (1 - p) full tile h2.yaku h2.yakuman h2.dora
      (BASE_POINTS.getD h2.limit 0) h2.limit g.uradora_ind
  let cond := tile ∈ g.waits (1 - p) ∧ g1.furiten (1 - p) = false
  ((out.2.any (fun pr => pr.2.isRon)) = true ↔ (cond ∧ 1 ≤ h1.limit))
  ∧ ((cond ∧ 1 ≤ h1.limit) →
      out.1.finished = true ∧
      out.2 = [(p, .end_move), (0, .discarded p tile), (1, .discarded p tile),
               (0, ronEv), (1, ronEv)])
  ∧ ((cond ∧ h1.limit = 0) →
      (out.2.all (fun pr => !pr.2.isRon)) = true ∧
      (¬((g1.discards 0).length = DISCARDS ∧ (g1.discards 1).length = DISCARDS) →
        out.1.finished = false ∧ out.1.moves out.1.player_turn ≠ none))

/-- `player_turn` unfolded at an explicit state record. -/
theorem player_turn_mk (e : Fin 2) (it ti : Fin 2 → List Tile) (d u : Tile)
    (ha : Fin 2 → Option (List Tile)) (w di : Fin 2 → List Tile) (t : Nat)
    (mv : Fin 2 → Option (String × Nat)) (f : Bool) :
    (Game.mk e it ti d u ha w di t mv f).player_turn =
      if (di 0).length = (di 1).length then e else 1 - e := rfl

/-- Rewriting form of `Game.start_move`: the stored move and the emitted
`start_move` event. -/
theorem start_move_eq (g : Game) (i : Fin 2) (mt : String) (tl : Nat) :
    g.start_move i mt tl =
      ({ g with moves := Function.update g.moves i (some (mt, g.t + tl + EXTRA_TIME)) },
       [(i, .start_move mt (((g.t + tl + EXTRA_TIME : Nat) : Int) - (g.t : Int) - (EXTRA_TIME : Int)))]) := by
  unfold Game.start_move Game.send_move
  simp

/-- C1: a valid phase-2 discard broadcasts ron to both seats exactly under
the wait/furiten/mangan condition, with the payload described by
`RonSpec`. -/
theorem C1_ron_iff (R : RulesModel) (g : Game) (p : Fin 2) (tile : Tile)
    (hph : g.phase = 2) (hturn : g.player_turn = p) (htile : tile ∈ g.tiles p) :
    RonSpec R g p tile := by
  obtain ⟨hfin, htr0, htr1⟩ := phase2_facts g hph
  by_cases hc : tile ∈ g.waits (1 - p) ∧
      ({ g with tiles := Function.update g.tiles p ((g.tiles p).erase tile),
                discards := Function.update g.discards p (g.discards p ++ [tile]),
                moves := Function.update g.moves p none } : Game).furiten (1 - p) = false
  all_goals simp only [hfin] at hc
  · by_cases hl : (R.bestHand (tsort ((g.hand (1 - p)).getD [] ++ [tile])) tile
        (({ g with tiles := Function.update g.tiles p ((g.tiles p).erase tile),
                   discards := Function.update g.discards p (g.discards p ++ [tile]),
                   moves := Function.update g.moves p none } : Game).options
          (1 - p) false)).limit = 0
    all_goals simp only [hfin] at hl
    · by_cases hd : (Function.update g.discards p (g.discards p ++ [tile]) 0).length = DISCARDS
          ∧ (Function.update g.discards p (g.discards p ++ [tile]) 1).length = DISCARDS
      · unfold RonSpec
        simp [Game.on_discard, hph, hturn, htile, Game.end_move, Game.check_ron,
          start_move_eq, hc, hl, hd, Event.isRon, hfin]
      · unfold RonSpec
        simp [Game.on_discard, hph, hturn, htile, Game.end_move, Game.check_ron,
          start_move_eq, hc, hl, hd, Event.isRon, hfin, player_turn_mk,
          Function.update_same]
    · unfold RonSpec
      simp [Game.on_discard, hph, hturn, htile, Game.end_move, Game.check_ron,
        start_move_eq, hc, hl, Event.isRon, hfin]
      omega
  · by_cases hd : (Function.update g.discards p (g.discards p ++ [tile]) 0).length = DISCARDS
        ∧ (Function.update g.discards p (g.discards p ++ [tile]) 1).length = DISCARDS
    · unfold RonSpec
      simp [Game.on_discard, hph, hturn, htile, Game.end_move, Game.check_ron,
        start_move_eq, hc, hd, Event.isRon, hfin]
    · unfold RonSpec
      simp [Game.on_discard, hph, hturn, htile, Game.end_move, Game.check_ron,
        start_move_eq, hc, hd, Event.isRon, hfin, player_turn_mk,
        Function.update_same]

/-- A concrete rules model for instantiating the game-level theorems: every
13-tile hand waits on `S5`; scoring reaches haneman, one uradora. -/
def c1rules : RulesModel :=
  { waits := fun _ => [S5]
    bestHand := fun _ _ o =>
      if o.uradora_ind.isSome then ⟨["junchan"], false, 1, 3⟩
      else ⟨["junchan"], false, 0, 2⟩ }

/-- A concrete phase-2 state in which seat 0 is to discard and seat 1 waits
on `S5` without being furiten. -/
def c1game : Game :=
  { east := 0
    initial_tiles := fun _ => []
    tiles := fun i => if i = 0 then [S5, M1] else [M2]
    dora_ind := M1
    uradora_ind := M2
    hand := fun i => if i = 0 then some [M1] else some [M3]
    waits := fun i => if i = 0 then [] else [S5]
    discards := fun _ => []
    t := 0
    moves := fun i => if i = 0 then some ("discard", 25) else none
    finished := false }

/-- Witness for C1 at a concrete winning discard. -/
theorem C1_ron_iff_witness :
    c1game.phase = 2 ∧ c1game.player_turn = 0 ∧ S5 ∈ c1game.tiles 0
    ∧ RonSpec c1rules c1game 0 S5 :=
  ⟨by decide, by decide, by decide,
   C1_ron_iff c1rules c1game 0 S5 (by decide) (by decide) (by decide)⟩

/-! ## C7: the discard-balance invariant -/

theorem fin2_cases : ∀ i : Fin 2, i = 0 ∨ i = 1 := by decide

theorem fin2_one_sub_zero : (1 : Fin 2) - 0 = 1 := by decide

theorem fin2_one_sub_one : (1 : Fin 2) - 1 = 0 := by decide

/-- `start` changes neither the discard piles nor the seating. -/
theorem start_discards (g : Game) :
    g.start.1.discards = g.discards ∧ g.start.1.east = g.east := by
  unfold Game.start
  simp [start_move_eq]

/-- `on_hand` changes neither the discard piles nor the seating. -/
theorem on_hand_discards (R : RulesModel) (g : Game) (p : Fin 2) (h : List Tile) :
    (Game.on_hand R g p h).1.discards = g.discards
      ∧ (Game.on_hand R g p h).1.east = g.east := by
  simp only [Game.on_hand, Game.abort, Game.end_move, start_move_eq]
  split_ifs <;> simp

/-- `beat` changes neither the discard piles nor the seating. -/
theorem beat_discards (g : Game) :
    g.beat.1.discards = g.discards ∧ g.beat.1.east = g.east := by
  simp only [Game.beat, Game.abort]
  split_ifs <;> simp

/-- `on_discard` either leaves the piles unchanged (a validation abort) or,
when it is the mover's turn, appends the tile to the mover's pile. -/
theorem on_discard_discards (R : RulesModel) (g : Game) (p : Fin 2) (tile : Tile) :
    ((Game.on_discard R g p tile).1.discards = g.discards
       ∧ (Game.on_discard R g p tile).1.east = g.east)
    ∨ (g.player_turn = p
       ∧ (Game.on_discard R g p tile).1.discards
           = Function.update g.discards p (g.discards p ++ [tile])
       ∧ (Game.on_discard R g p tile).1.east = g.east) := by
  by_cases h1 : g.phase ≠ 2
  · left; unfold Game.on_discard Game.abort; simp [h1]
  · by_cases h2 : g.player_turn ≠ p
    · left; unfold Game.on_discard Game.abort; simp [h1, h2]
    · by_cases h3 : tile ∉ g.tiles p
      · left; unfold Game.on_discard Game.abort; simp [h1, h2, h3]
      · right
        refine ⟨by push_neg at h2; exact h2, ?_⟩
        simp only [Game.on_discard, Game.abort, Game.end_move, Game.check_ron,
          start_move_eq, h1, h2, h3, not_false_eq_true, ite_true, ite_false]
        split_ifs <;> simp

/-- C7 amended: in every reachable state East's pile is as long as or one
longer than the other pile, and the next discard goes to East on equal
piles and to the other seat otherwise. -/
theorem C7_turn_invariant (R : RulesModel) (g : Game) (hr : Reachable R g) :
    ((g.discards g.east).length = (g.discards (1 - g.east)).length ∨
     (g.discards g.east).length = (g.discards (1 - g.east)).length + 1)
    ∧ g.player_turn =
        (if (g.discards 0).length = (g.discards 1).length then g.east
         else 1 - g.east) := by
  refine ⟨?_, rfl⟩
  induction hr with
  | start deck east hlen =>
      obtain ⟨hd, he⟩ := start_discards (Game.init deck east)
      rw [hd, he]
      simp [Game.init]
  | on_hand p h hr ih =>
      obtain ⟨hd, he⟩ := on_hand_discards R _ p h
      rw [hd, he]; exact ih
  | beat hr ih =>
      obtain ⟨hd, he⟩ := beat_discards _
      rw [hd, he]; exact ih
  | @on_discard g' p t hr ih =>
      rcases on_discard_discards R g' p t with ⟨hd, he⟩ | ⟨hpt, hd, he⟩
      · rw [hd, he]; exact ih
      · rw [hd, he]
        unfold Game.player_turn at hpt
        rcases fin2_cases g'.east with he0 | he1
        · rw [he0] at ih hpt ⊢
          rw [fin2_one_sub_zero] at ih ⊢
          by_cases hlen : (g'.discards 0).length = (g'.discards 1).length
          · rw [if_pos hlen] at hpt
            subst hpt
            rw [Function.update_same,
              Function.update_noteq (by decide : (1 : Fin 2) ≠ 0)]
            simp only [List.length_append, List.length_singleton]
            omega
          · rw [if_neg hlen] at hpt
            rw [fin2_one_sub_zero] at hpt
            subst hpt
            rw [Function.update_same,
              Function.update_noteq (by decide : (0 : Fin 2) ≠ 1)]
            simp only [List.length_append, List.length_singleton]
            omega
        · rw [he1] at ih hpt ⊢
          rw [fin2_one_sub_one] at ih ⊢
          by_cases hlen : (g'.discards 0).length = (g'.discards 1).length
          · rw [if_pos hlen] at hpt
            subst hpt
            rw [Function.update_same,
              Function.update_noteq (by decide : (0 : Fin 2) ≠ 1)]
            simp only [List.length_append, List.length_singleton]
            omega
          · rw [if_neg hlen] at hpt
            rw [fin2_one_sub_one] at hpt
            subst hpt
            rw [Function.update_same,
              Function.update_noteq (by decide : (1 : Fin 2) ≠ 0)]
            simp only [List.length_append, List.length_singleton]
            omega

/-- A 13-tile hand drawn from the canonical unshuffled deal. -/
def c7hand : List Tile := [M1, M2, M3, M4, M5, M6, M7, M8, M9, P1, P2, P3, P4]

/-- Reachable trace with seat 1 as East: start, both hands, East's first
discard. -/
def c7g0 : Game := ((Game.init TILES 1).start).1

def c7g1 : Game := (Game.on_hand c1rules c7g0 0 c7hand).1

def c7g2 : Game := (Game.on_hand c1rules c7g1 1 c7hand).1

def c7g3 : Game := (Game.on_discard c1rules c7g2 1 P5).1

/-- C7 counterexample: with East = seat 1, after East's first discard the
seat-indexed difference `|discards[0]| - |discards[1]|` is `-1`, outside
`{0, 1}`; the claimed invariant does not hold for every choice of East. -/
theorem C7_counterexample :
    Reachable c1rules c7g3
    ∧ (c7g3.discards 0).length = 0 ∧ (c7g3.discards 1).length = 1
    ∧ ¬((((c7g3.discards 0).length : ℤ) - ((c7g3.discards 1).length : ℤ))
          ∈ ({0, 1} : Set ℤ)) := by
  refine ⟨?_, by decide, by decide, ?_⟩
  · exact Reachable.on_discard 1 P5
      (Reachable.on_hand 1 c7hand
        (Reachable.on_hand 0 c7hand (Reachable.start TILES 1 (by decide))))
  · intro hmem
    have h0 : (c7g3.discards 0).length = 0 := by decide
    have h1 : (c7g3.discards 1).length = 1 := by decide
    rw [h0, h1] at hmem
    norm_num [Set.mem_insert_iff, Set.mem_singleton_iff] at hmem

/-- Witness for the amended C7 theorem at the concrete reachable state. -/
theorem C7_turn_invariant_witness :
    ((c7g3.discards c7g3.east).length = (c7g3.discards (1 - c7g3.east)).length ∨
     (c7g3.discards c7g3.east).length = (c7g3.discards (1 - c7g3.east)).length + 1)
    ∧ c7g3.player_turn =
        (if (c7g3.discards 0).length = (c7g3.discards 1).length then c7g3.east
         else 1 - c7g3.east) :=
  C7_turn_invariant c1rules c7g3
    (Reachable.on_discard 1 P5
      (Reachable.on_hand 1 c7hand
        (Reachable.on_hand 0 c7hand (Reachable.start TILES 1 (by decide)))))

/-! ## C8: behaviour after `finished` -/

/-- C8 amended: `finished` is sticky under every handler; and once the game
is finished with both hands set (phase 3), a further `on_discard` emits
exactly the two `abort` broadcasts and leaves no pending move. -/
theorem C8_finished_sticky (R : RulesModel) (g : Game) (p q : Fin 2)
    (hand : List Tile) (tile : Tile) (hf : g.finished = true) :
    (Game.on_hand R g p hand).1.finished = true
    ∧ (Game.on_discard R g q tile).1.finished = true
    ∧ g.beat.1.finished = true
    ∧ (g.phase = 3 →
        (Game.on_discard R g q tile).2 =
          [(0, .abort q "on_discard: wrong phase"),
           (1, .abort q "on_discard: wrong phase")]
        ∧ ∀ i, (Game.on_discard R g q tile).1.moves i = none) := by
  refine ⟨?_, ?_, ?_, ?_⟩
  · simp only [Game.on_hand, Game.abort, Game.end_move, start_move_eq]
    split_ifs <;> simp [hf]
  · simp only [Game.on_discard, Game.abort, Game.end_move, Game.check_ron,
      start_move_eq]
    split_ifs <;> simp [hf]
  · simp only [Game.beat, Game.abort]
    split_ifs <;> simp [hf]
  · intro h3
    simp only [Game.on_discard, Game.abort, ne_eq, h3, reduceIte]
    exact ⟨rfl, fun i => rfl⟩

/-- A 3-tile submission, rejected by the length check. -/
def c8short : List Tile := [M1, M2, M3]

/-- Trace: start with seat 0 as East; seat 1 submits a short hand, which
aborts the game during hand selection. -/
def c8g0 : Game := ((Game.init TILES 0).start).1

def c8gA : Game := (Game.on_hand c1rules c8g0 1 c8short).1

/-- Continuation: after the abort both seats still submit valid hands; the
second submission re-opens a `discard` move for East. -/
def c8gB : Game :=
  (Game.on_hand c1rules (Game.on_hand c1rules c8gA 0 c7hand).1 1 c7hand).1

/-- C8 counterexample: in the reachable aborted state `c8gA` the game is
finished, yet a subsequent `on_discard` still emits events, and two
subsequent hand submissions are processed and open a pending move while
`finished` stays true. -/
theorem C8_counterexample :
    Reachable c1rules c8gA ∧ c8gA.finished = true
    ∧ (Game.on_discard c1rules c8gA 0 M1).2 ≠ []
    ∧ Reachable c1rules c8gB ∧ c8gB.finished = true
    ∧ (c8gB.moves 0).isSome = true := by
  refine ⟨?_, by decide, by decide, ?_, by decide, by decide⟩
  · exact Reachable.on_hand 1 c8short (Reachable.start TILES 0 (by decide))
  · exact Reachable.on_hand 1 c7hand
      (Reachable.on_hand 0 c7hand
        (Reachable.on_hand 1 c8short (Reachable.start TILES 0 (by decide))))

/-- Witness for the amended C8 theorem at the concrete finished phase-3
state `c8gB`. -/
theorem C8_finished_sticky_witness :
    c8gB.finished = true
    ∧ ((Game.on_hand c1rules c8gB 0 c7hand).1.finished = true
      ∧ (Game.on_discard c1rules c8gB 1 M1).1.finished = true
      ∧ c8gB.beat.1.finished = true
      ∧ (c8gB.phase = 3 →
          (Game.on_discard c1rules c8gB 1 M1).2 =
            [(0, .abort 1 "on_discard: wrong phase"),
             (1, .abort 1 "on_discard: wrong phase")]
          ∧ ∀ i, (Game.on_discard c1rules c8gB 1 M1).1.moves i = none)) :=
  ⟨by decide, C8_finished_sticky c1rules c8gB 0 1 c7hand M1 (by decide)⟩

/-! ## The room layers: `src/server/room.py` and `src/server-py/room.py` -/

/-- The Python `msg_type` string of an event. -/
def Event.msgType : Event → String
  | .phase_one .. => "phase_one"
  | .start_move .. => "start_move"
  | .end_move => "end_move"
  | .hand .. => "hand"
  | .wait_for_phase_two => "wait_for_phase_two"
  | .phase_two => "phase_two"
  | .discarded .. => "discarded"
  | .ron .. => "ron"
  | .draw => "draw"
  | .abort .. => "abort"

/-- A message as delivered to a seat's socket: either a plain
`send(msg_type, msg)` or the reconnect wrapper
`send('replay', msg={'type': msg_type, **msg})`, which keeps the inner
event intact. -/
inductive RoomMsg where
  | direct (e : Event)
  | replay (inner : Event)
deriving DecidableEq, Repr

/-- The wrapped or plain inner event of a delivered message. -/
def RoomMsg.unwrap : RoomMsg → Event
  | .direct e => e
  | .replay e => e

/-- `Room.resend_messages` of `src/server/room.py`: send every journal
entry from `n_received` on, unmodified and unfiltered. -/
def resend_messages (messages : List Event) (n_received : Nat) : List RoomMsg :=
  (messages.drop n_received).map RoomMsg.direct

/-- The loop of `Room.replay_messages` in `src/server-py/room.py`: walk the
journal suffix, `continue` on `start_move`/`end_move`, wrap everything else
as a `replay` message. -/
def replay_loop : List Event → List RoomMsg
  | [] => []
  | e :: rest =>
      if e.msgType = "start_move" ∨ e.msgType = "end_move" then replay_loop rest
      else RoomMsg.replay e :: replay_loop rest

/-- `Room.replay_messages` of `src/server-py/room.py`: replay the journal
suffix, then let the game re-emit the seat's pending move via the
`send_move` hook (whose events reach the same seat through the room
callback). -/
def replay_messages (g : Game) (messages : List Event) (idx : Fin 2)
    (n_received : Nat) : List RoomMsg :=
  replay_loop (messages.drop n_received)
    ++ (g.send_move idx).map (fun pr => RoomMsg.direct pr.2)

/-- The replay loop is the filtered, wrapped journal suffix. -/
theorem replay_loop_eq (l : List Event) :
    replay_loop l =
      (l.filter (fun e =>
        !(decide (e.msgType = "start_move" ∨ e.msgType = "end_move")))).map
          RoomMsg.replay := by
  induction l with
  | nil => rfl
  | cons e rest ih =>
      by_cases h : e.msgType = "start_move" ∨ e.msgType = "end_move"
      · rw [replay_loop, if_pos h, ih]
        rcases h with h | h <;> simp [List.filter_cons, h]
      · rw [replay_loop, if_neg h, ih]
        push_neg at h
        simp [List.filter_cons, h.1, h.2]

/-- C9: attaching a seat that declares `n_received` delivers exactly the
journal entries from that index on, in order, minus every
`start_move`/`end_move`, each wrapped as `replay`, followed by the pending
`start_move` re-emitted through the `send_move` hook when one exists. -/
theorem C9_replay_messages_exact (g : Game) (messages : List Event)
    (idx : Fin 2) (n : Nat) :
    replay_messages g messages idx n =
      ((messages.drop n).filter (fun e =>
          !(decide (e.msgType = "start_move" ∨ e.msgType = "end_move")))).map
            RoomMsg.replay
        ++ (match g.moves idx with
            | none => []
            | some (mt, dl) =>
                [RoomMsg.direct (.start_move mt
                    ((dl : Int) - (g.t : Int) - (EXTRA_TIME : Int)))]) := by
  unfold replay_messages
  rw [replay_loop_eq]
  cases hm : g.moves idx with
  | none => simp [Game.send_move, hm]
  | some pr => cases pr with
    | mk mt dl => simp [Game.send_move, hm]

/-- C10 counterexample: on the one-entry journal `[phase_two]` with
`n_received = 0`, the old room resends the raw event while the new room
delivers it wrapped as `replay`; the two deliveries differ. -/
def c10journal : List Event := [Event.phase_two]

theorem C10_counterexample :
    resend_messages c10journal 0 ≠ replay_messages c3game c10journal 0 0 := by
  decide

/-- C10 amended: the two room implementations do not deliver identical
sequences: the old one resends the raw journal suffix (move events
included), the new one skips `start_move`/`end_move`, wraps the rest as
`replay` and re-emits the pending move.  When the seat has no pending move,
unwrapping the new delivery yields exactly the old delivery with the move
events removed. -/
theorem C10_deliveries_related (g : Game) (messages : List Event)
    (idx : Fin 2) (n : Nat) (hm : g.moves idx = none) :
    (replay_messages g messages idx n).map RoomMsg.unwrap =
      ((resend_messages messages n).map RoomMsg.unwrap).filter
        (fun e => !(decide (e.msgType = "start_move" ∨ e.msgType = "end_move"))) := by
  unfold replay_messages resend_messages
  rw [replay_loop_eq]
  simp only [Game.send_move, hm, List.map_nil, List.append_nil, List.map_map]
  have h1 : RoomMsg.unwrap ∘ RoomMsg.replay = id := rfl
  have h2 : RoomMsg.unwrap ∘ RoomMsg.direct = id := rfl
  rw [h1, h2]
  simp

/-- Witness for the amended C10 theorem at a concrete journal containing a
`start_move` entry. -/
def c10journal2 : List Event :=
  [Event.phase_two, Event.start_move "discard" 15, Event.draw]

theorem C10_deliveries_related_witness :
    c3game.moves 0 = none
    ∧ (replay_messages c3game c10journal2 0 1).map RoomMsg.unwrap =
        ((resend_messages c10journal2 1).map RoomMsg.unwrap).filter
          (fun e => !(decide (e.msgType = "start_move" ∨ e.msgType = "end_move"))) :=
  ⟨by decide, C10_deliveries_related c3game c10journal2 0 1 (by decide)⟩

/-! ## C2: exactness of the decomposer -/

/-- The tiles a group stands for: two copies for a pair, three for a pon,
the run `t, t+1, t+2` for a chi. -/
def groupTiles : Group → List Tile
  | (GType.pair, t) => [t, t]
  | (GType.pon, t) => [t, t, t]
  | (GType.chi, t) => [t, (t.1, t.2 + 1), (t.1, t.2 + 2)]

/-- Well-formedness of a chi anchor: a numeric suit, rank at most 7 (so the
run stays within the suit's ranks 1..9). -/
def chiOK : Group → Prop
  | (GType.chi, t) => t.1 ≠ Suit.X ∧ t.2 ≤ 7
  | _ => True

/-- The spec's residue consumption: each group is a pon or chi anchored at
the lowest remaining tile, its tiles are drawn from the residue, and the
final residue is empty. -/
def SpecGroups : Multiset Tile → List Group → Prop
  | m, [] => m = 0
  | m, g :: gs =>
      g.1 ≠ GType.pair ∧ chiOK g ∧ (∀ x ∈ m, tile_le g.2 x = true) ∧
      (↑(groupTiles g) : Multiset Tile) ≤ m ∧ SpecGroups (m - ↑(groupTiles g)) gs

/-- The spec's decomposition of a hand: some pair first, then groups
consuming the 12-tile residue as in `SpecGroups`. -/
def SpecDecomp (tiles : Multiset Tile) (d : List Group) : Prop :=
  ∃ t gs, d = (GType.pair, t) :: gs ∧ ({t, t} : Multiset Tile) ≤ tiles ∧
    SpecGroups (tiles - {t, t}) gs

theorem pair_le_iff (v : Tile) (m : Multiset Tile) :
    ({v, v} : Multiset Tile) ≤ m ↔ 2 ≤ m.count v := by
  have h : ({v, v} : Multiset Tile) = Multiset.replicate 2 v := by
    simp [Multiset.replicate_succ, Multiset.insert_eq_cons]
  rw [h, ← Multiset.le_count_iff_replicate_le]

/-- Splitting off the head of a sorted list. -/
theorem tsorted_cons {a : Tile} {l : List Tile} :
    TSorted (a :: l) ↔ (∀ x ∈ l, tile_le a x = true) ∧ TSorted l :=
  List.pairwise_cons

/-- The head of a sorted list is a lower bound for all its members. -/
theorem head_min {a : Tile} {l : List Tile} (hs : TSorted (a :: l)) :
    ∀ x ∈ a :: l, tile_le a x = true := by
  intro x hx
  rcases List.mem_cons.mp hx with rfl | h
  · exact tile_le_refl x
  · exact (tsorted_cons.mp hs).1 x h

/-- In a sorted list, a member below the head equals the head. -/
theorem sorted_head_eq {a v : Tile} {l : List Tile} (hs : TSorted (a :: l))
    (hv : v ∈ a :: l) (hle : tile_le v a = true) : v = a :=
  tile_le_antisymm hle (head_min hs v hv)

/-- A sorted list stays sorted after an erase. -/
theorem tsorted_erase {l : List Tile} (hs : TSorted l) (v : Tile) :
    TSorted (l.erase v) :=
  List.Pairwise.sublist (List.erase_sublist v l) hs

/-- `find_pair` on a two-element list. -/
theorem find_pair_two (a b : Tile) :
    find_pair [a, b] = if a = b then [((GType.pair, a), ([] : List Tile))] else [] := by
  by_cases h : a = b <;> simp [find_pair, h]

/-- `find_pair` unfolded one position on a list of three or more tiles. -/
theorem find_pair_cons3 (a b c : Tile) (rest : List Tile) :
    find_pair (a :: b :: c :: rest) =
      (if a = b ∧ b ≠ c then [((GType.pair, a), c :: rest)] else [])
        ++ (find_pair (b :: c :: rest)).map (fun pr => (pr.1, a :: pr.2)) := by
  by_cases hab : a = b
  · by_cases hbc : b = c
    · simp [find_pair, hab, hbc]
    · simp [find_pair, hab, hbc]
  · simp [find_pair, hab]

/-- The pair-scan skip: a position whose three tiles agree yields nothing;
the output is the shifted scan unchanged. -/
theorem find_pair_skip (a : Tile) (rest : List Tile) :
    find_pair (a :: a :: a :: rest) =
      (find_pair (a :: a :: rest)).map (fun pr => (pr.1, a :: pr.2)) := by
  rw [find_pair_cons3]
  simp

/-- Occurring (at least) twice in a list: a member that survives one
erase. -/
def Two (v : Tile) (ts : List Tile) : Prop := v ∈ ts ∧ v ∈ ts.erase v

instance (v : Tile) (ts : List Tile) : Decidable (Two v ts) := by
  unfold Two; infer_instance

theorem erase_cons_ne {a b : Tile} (l : List Tile) (h : a ≠ b) :
    (a :: l).erase b = a :: l.erase b := by
  rw [List.erase_cons_tail]
  simp [h]

theorem two_cons_self {a : Tile} {l : List Tile} : Two a (a :: l) ↔ a ∈ l := by
  unfold Two
  simp [List.erase_cons_head]

theorem two_cons_ne {v a : Tile} {l : List Tile} (h : v ≠ a) :
    Two v (a :: l) ↔ Two v l := by
  unfold Two
  rw [erase_cons_ne l (Ne.symm h)]
  simp [h, Ne.symm h]

/-- Characterization of `find_pair` on sorted input: an entry per tile
value occurring at least twice, with the double-erase as remainder. -/
theorem find_pair_mem :
    ∀ (ts : List Tile), TSorted ts → ∀ pr : Group × List Tile,
      pr ∈ find_pair ts ↔
        ∃ v, pr = ((GType.pair, v), (ts.erase v).erase v) ∧ Two v ts
  | [] => by
      intro _ pr
      constructor
      · intro h; simp [find_pair] at h
      · rintro ⟨v, _, hv, -⟩; simp at hv
  | [a] => by
      intro _ pr
      constructor
      · intro h; simp [find_pair] at h
      · rintro ⟨v, _, hv1, hv2⟩
        have : v = a := by simpa using hv1
        subst this
        simp [List.erase_cons_head] at hv2
  | [a, b] => by
      intro hs pr
      rw [find_pair_two]
      by_cases hab : a = b
      · subst hab
        rw [if_pos rfl]
        constructor
        · intro h
          have hpr : pr = ((GType.pair, a), ([] : List Tile)) := by simpa using h
          refine ⟨a, ?_, ?_⟩
          · rw [hpr]; simp [List.erase_cons_head]
          · rw [two_cons_self]; simp
        · rintro ⟨v, hpr, hv⟩
          have hva : v = a := by
            by_contra hne
            rw [two_cons_ne hne, two_cons_ne hne] at hv
            exact absurd hv.1 (by simp)
          subst hva
          rw [hpr]
          simp [List.erase_cons_head]
      · rw [if_neg hab]
        constructor
        · intro h; simp at h
        · rintro ⟨v, -, hv⟩
          by_cases hva : v = a
          · subst hva
            rw [two_cons_self] at hv
            have : v = b := by simpa using hv
            exact (hab this).elim
          · rw [two_cons_ne hva] at hv
            have hvb : v = b := by
              have := hv.1; simpa using this
            subst hvb
            rw [two_cons_self] at hv
            simp at hv
  | a :: b :: c :: rest => by
      intro hs pr
      have hs' : TSorted (b :: c :: rest) := (tsorted_cons.mp hs).2
      have ih := find_pair_mem (b :: c :: rest) hs'
      rw [find_pair_cons3, List.mem_append, List.mem_map]
      constructor
      · rintro (hhead | ⟨pr', hpr', rfl⟩)
        · by_cases hcond : a = b ∧ b ≠ c
          · rw [if_pos hcond, List.mem_singleton] at hhead
            subst hhead
            obtain ⟨hab, -⟩ := hcond
            refine ⟨a, ?_, ?_⟩
            · rw [List.erase_cons_head, ← hab, List.erase_cons_head]
            · rw [two_cons_self, ← hab]; simp
          · rw [if_neg hcond] at hhead
            simp at hhead
        · obtain ⟨v, hpr, hv⟩ := ih pr' |>.mp hpr'
          by_cases hva : v = a
          · subst hva
            -- v occurs twice in the tail, so b = v and then c = v
            have hab : v = b := sorted_head_eq hs' hv.1 (head_min hs b (by simp))
            subst hab
            have hv2 : v ∈ c :: rest := by
              have := hv.2
              rwa [List.erase_cons_head] at this
            have hac : v = c := sorted_head_eq (tsorted_cons.mp hs').2 hv2
              (head_min hs c (by simp))
            subst hac
            refine ⟨v, ?_, ?_⟩
            · rw [hpr]
              simp [List.erase_cons_head]
            · rw [two_cons_self]; simp
          · refine ⟨v, ?_, ?_⟩
            · rw [hpr, erase_cons_ne _ (Ne.symm hva), erase_cons_ne _ (Ne.symm hva)]
            · rw [two_cons_ne hva]; exact hv
      · rintro ⟨v, hpr, hv⟩
        by_cases hva : v = a
        · subst hva
          have hmem : v ∈ b :: c :: rest := two_cons_self.mp hv
          have hab : v = b := sorted_head_eq hs' hmem (head_min hs b (by simp))
          subst hab
          by_cases hbc : v = c
          · -- the head position is skipped; the entry comes from the tail
            subst hbc
            right
            refine ⟨((GType.pair, v), ((v :: v :: rest).erase v).erase v), ?_, ?_⟩
            · exact (ih _).mpr ⟨v, rfl, by rw [two_cons_self]; simp⟩
            · rw [hpr]
              simp [List.erase_cons_head]
          · left
            rw [if_pos ⟨rfl, hbc⟩, List.mem_singleton, hpr]
            simp [List.erase_cons_head]
        · right
          have hv' : Two v (b :: c :: rest) := (two_cons_ne hva).mp hv
          refine ⟨((GType.pair, v), ((b :: c :: rest).erase v).erase v), ?_, ?_⟩
          · exact (ih _).mpr ⟨v, rfl, hv'⟩
          · rw [hpr, erase_cons_ne _ (Ne.symm hva), erase_cons_ne _ (Ne.symm hva)]

/-- On sorted input, the pair values produced by `find_pair` are pairwise
distinct (each run of equal tiles contributes exactly one entry). -/
theorem find_pair_values_nodup :
    ∀ ts : List Tile, TSorted ts →
      ((find_pair ts).map (fun pr => pr.1.2)).Nodup
  | [] => by intro _; simp [find_pair]
  | [a] => by intro _; simp [find_pair]
  | [a, b] => by
      intro hs
      rw [find_pair_two]
      split_ifs <;> simp
  | a :: b :: c :: rest => by
      intro hs
      have hs' : TSorted (b :: c :: rest) := (tsorted_cons.mp hs).2
      have ih := find_pair_values_nodup (b :: c :: rest) hs'
      rw [find_pair_cons3, List.map_append, List.map_map]
      have hmapeq : ((fun pr : Group × List Tile => pr.1.2) ∘
          (fun pr : Group × List Tile => (pr.1, a :: pr.2)))
            = fun pr : Group × List Tile => pr.1.2 := rfl
      rw [hmapeq, List.nodup_append]
      refine ⟨?_, ih, ?_⟩
      · split_ifs <;> simp
      · by_cases hcond : a = b ∧ b ≠ c
        · rw [if_pos hcond]
          intro x hx hx2
          have hxa : x = a := by simpa using hx
          subst hxa
          rw [List.mem_map] at hx2
          obtain ⟨pr', hpr', hval⟩ := hx2
          obtain ⟨v, hpr, hv⟩ := (find_pair_mem _ hs' pr').mp hpr'
          have hvx : v = x := by rw [hpr] at hval; exact hval
          subst hvx
          -- v = a occurs twice in the tail: then b = v and c = v,
          -- contradicting b ≠ c
          have hab2 : v = b := sorted_head_eq hs' hv.1 (head_min hs b (by simp))
          have hv2 : v ∈ c :: rest := by
            have := hv.2
            rwa [← hab2, List.erase_cons_head] at this
          have hac2 : v = c := sorted_head_eq (tsorted_cons.mp hs').2 hv2
            (head_min hs c (by simp))
          exact hcond.2 (hab2 ▸ hac2 ▸ rfl)
        · rw [if_neg hcond]
          simp

/-- Membership in `begin_pon`: the list starts with three equal tiles. -/
theorem begin_pon_mem (ts : List Tile) (pr : Group × List Tile) :
    pr ∈ begin_pon ts ↔
      ∃ a rest, ts = a :: a :: a :: rest ∧ pr = ((GType.pon, a), rest) := by
  match ts with
  | [] => simp [begin_pon]
  | [a] => simp [begin_pon]
  | [a, b] => simp [begin_pon]
  | a :: b :: c :: rest =>
      simp only [begin_pon]
      by_cases h : a = b ∧ b = c
      · obtain ⟨hab, hbc⟩ := h
        subst hab; subst hbc
        rw [if_pos ⟨rfl, rfl⟩]
        constructor
        · intro hm
          exact ⟨a, rest, rfl, List.mem_singleton.mp hm⟩
        · rintro ⟨a', rest', heq, hpr⟩
          simp only [List.cons.injEq] at heq
          obtain ⟨rfl, -, -, rfl⟩ := heq
          simp [hpr]
      · rw [if_neg h]
        constructor
        · intro hm; simp at hm
        · rintro ⟨a', rest', heq, -⟩
          simp only [List.cons.injEq] at heq
          obtain ⟨rfl, h2, h3, -⟩ := heq
          exact (h ⟨h2.symm, h2 ▸ h3.symm⟩).elim

/-- Membership in `begin_chi`: the head anchors a run whose successors are
present. -/
theorem begin_chi_mem (ts : List Tile) (pr : Group × List Tile) :
    pr ∈ begin_chi ts ↔
      ∃ t1 rest, ts = t1 :: rest ∧ ¬(t1.1 = Suit.X ∨ 8 ≤ t1.2)
        ∧ (t1.1, t1.2 + 1) ∈ ts ∧ (t1.1, t1.2 + 2) ∈ ts
        ∧ pr = ((GType.chi, t1),
            ((ts.erase t1).erase (t1.1, t1.2 + 1)).erase (t1.1, t1.2 + 2)) := by
  match ts with
  | [] => simp [begin_chi]
  | t1 :: rest =>
      simp only [begin_chi]
      by_cases h1 : t1.1 = Suit.X ∨ 8 ≤ t1.2
      · rw [if_pos h1]
        constructor
        · intro hm; simp at hm
        · rintro ⟨t1', rest', heq, hno, -⟩
          simp only [List.cons.injEq] at heq
          obtain ⟨rfl, -⟩ := heq
          exact (hno h1).elim
      · rw [if_neg h1]
        by_cases h2 : (t1.1, t1.2 + 1) ∈ t1 :: rest ∧ (t1.1, t1.2 + 2) ∈ t1 :: rest
        · rw [if_pos h2]
          constructor
          · intro hm
            exact ⟨t1, rest, rfl, h1, h2.1, h2.2, List.mem_singleton.mp hm⟩
          · rintro ⟨t1', rest', heq, -, hm2, hm3, hpr⟩
            simp only [List.cons.injEq] at heq
            obtain ⟨rfl, rfl⟩ := heq
            simp [hpr]
        · rw [if_neg h2]
          constructor
          · intro hm; simp at hm
          · rintro ⟨t1', rest', heq, -, hm2, hm3, -⟩
            simp only [List.cons.injEq] at heq
            obtain ⟨rfl, rfl⟩ := heq
            exact (h2 ⟨hm2, hm3⟩).elim

/-- A minimal member of a sorted list is its head. -/
theorem sorted_mem_head {t : Tile} {ts : List Tile} (hs : TSorted ts)
    (hmem : t ∈ ts) (hmin : ∀ x ∈ ts, tile_le t x = true) :
    ∃ ts1, ts = t :: ts1 := by
  match ts with
  | [] => simp at hmem
  | a :: l =>
      have : t = a := sorted_head_eq hs hmem (hmin a (by simp))
      exact ⟨l, by rw [this]⟩

/-- The product `BEq` on tiles coincides with the one derived from
decidable equality (both are lawful), letting list-level and multiset-level
erase lemmas be combined. -/
theorem tile_beq_eq : (instBEqProd : BEq Tile) = instBEqOfDecidableEq := by
  have hf : (fun (a b : Tile) => a == b) = fun (a b : Tile) => decide (a = b) := by
    funext a b
    by_cases h : a = b
    · subst h; simp
    · simp [h]
  show BEq.mk (fun (a b : Tile) => a == b) = BEq.mk (fun (a b : Tile) => decide (a = b))
  rw [hf]

theorem coe_triple_erase (ts : List Tile) (x y z : Tile) :
    (↑(((ts.erase x).erase y).erase z) : Multiset Tile) = ↑ts - ↑[x, y, z] := by
  have h3 : (↑[x, y, z] : Multiset Tile) = x ::ₘ y ::ₘ z ::ₘ 0 := rfl
  rw [h3, Multiset.sub_cons, Multiset.sub_cons, Multiset.sub_cons,
    Multiset.sub_zero, Multiset.coe_erase, Multiset.coe_erase, Multiset.coe_erase,
    tile_beq_eq]

theorem triple_le_iff (ts : List Tile) (x : Tile) :
    (↑[x, x, x] : Multiset Tile) ≤ ↑ts ↔ 3 ≤ Multiset.count x (↑ts : Multiset Tile) := by
  have h : (↑[x, x, x] : Multiset Tile) = Multiset.replicate 3 x := rfl
  rw [h, ← Multiset.le_count_iff_replicate_le]

theorem two_iff_pair_le (v : Tile) (ts : List Tile) :
    Two v ts ↔ ({v, v} : Multiset Tile) ≤ ↑ts := by
  rw [pair_le_iff]
  unfold Two
  have hco : (↑(ts.erase v) : Multiset Tile) = (↑ts : Multiset Tile).erase v := by
    rw [Multiset.coe_erase, tile_beq_eq]
  rw [← Multiset.mem_coe, ← Multiset.mem_coe, hco, ← Multiset.count_pos,
    ← Multiset.count_pos, Multiset.count_erase_self]
  omega

/-- Peel three copies of a minimal tile off a sorted list. -/
theorem sorted_three_head {t : Tile} {ts : List Tile} (hs : TSorted ts)
    (hmin : ∀ x ∈ ts, tile_le t x = true)
    (hcnt : (↑[t, t, t] : Multiset Tile) ≤ ↑ts) :
    ∃ rest, ts = t :: t :: t :: rest := by
  rw [triple_le_iff] at hcnt
  have h1 : t ∈ ts := by rw [← Multiset.mem_coe, ← Multiset.count_pos]; omega
  obtain ⟨ts1, rfl⟩ := sorted_mem_head hs h1 hmin
  rw [← Multiset.cons_coe, Multiset.count_cons_self] at hcnt
  have hs1 := (tsorted_cons.mp hs).2
  have hmin1 : ∀ x ∈ ts1, tile_le t x = true := fun x hx => hmin x (by simp [hx])
  have h2 : t ∈ ts1 := by rw [← Multiset.mem_coe, ← Multiset.count_pos]; omega
  obtain ⟨ts2, rfl⟩ := sorted_mem_head hs1 h2 hmin1
  rw [← Multiset.cons_coe, Multiset.count_cons_self] at hcnt
  have hs2 := (tsorted_cons.mp hs1).2
  have hmin2 : ∀ x ∈ ts2, tile_le t x = true := fun x hx => hmin1 x (by simp [hx])
  have h3 : t ∈ ts2 := by rw [← Multiset.mem_coe, ← Multiset.count_pos]; omega
  obtain ⟨ts3, rfl⟩ := sorted_mem_head hs2 h3 hmin2
  exact ⟨ts3, rfl⟩

theorem triple_sub_coe (t : Tile) (rest : List Tile) :
    (↑(t :: t :: t :: rest) : Multiset Tile) - ↑[t, t, t] = ↑rest := by
  have h3 : (↑[t, t, t] : Multiset Tile) = t ::ₘ t ::ₘ t ::ₘ 0 := rfl
  rw [h3, Multiset.sub_cons, Multiset.sub_cons, Multiset.sub_cons,
    Multiset.sub_zero, ← Multiset.cons_coe, ← Multiset.cons_coe,
    ← Multiset.cons_coe, Multiset.erase_cons_head, Multiset.erase_cons_head,
    Multiset.erase_cons_head]

/-- Soundness of the group generators on sorted input: every entry is a
non-pair group anchored at the minimum, well formed, drawn from the tiles,
and its remainder is the sorted multiset difference, three tiles shorter. -/
theorem begins_sound {ts : List Tile} (hs : TSorted ts) {g : Group} {r : List Tile}
    (hmem : (g, r) ∈ begin_pon ts ++ begin_chi ts) :
    g.1 ≠ GType.pair ∧ chiOK g
    ∧ (∀ x ∈ (↑ts : Multiset Tile), tile_le g.2 x = true)
    ∧ (↑(groupTiles g) : Multiset Tile) ≤ ↑ts
    ∧ (↑r : Multiset Tile) = ↑ts - ↑(groupTiles g)
    ∧ TSorted r ∧ r.length + 3 = ts.length := by
  rw [List.mem_append] at hmem
  rcases hmem with hp | hc
  · obtain ⟨a, rest, rfl, hpr⟩ := (begin_pon_mem _ _).mp hp
    simp only [Prod.mk.injEq] at hpr
    obtain ⟨rfl, rfl⟩ := hpr
    refine ⟨by simp, trivial, ?_, ?_, ?_, ?_, by simp⟩
    · intro x hx
      exact head_min hs x (Multiset.mem_coe.mp hx)
    · rw [show groupTiles (GType.pon, a) = [a, a, a] from rfl, triple_le_iff,
        ← Multiset.cons_coe, ← Multiset.cons_coe, ← Multiset.cons_coe,
        Multiset.count_cons_self, Multiset.count_cons_self, Multiset.count_cons_self]
      omega
    · rw [show groupTiles (GType.pon, a) = [a, a, a] from rfl, triple_sub_coe]
    · exact (tsorted_cons.mp (tsorted_cons.mp (tsorted_cons.mp hs).2).2).2
  · obtain ⟨t1, rest, rfl, hno, hm2, hm3, hpr⟩ := (begin_chi_mem _ _).mp hc
    simp only [Prod.mk.injEq] at hpr
    obtain ⟨rfl, rfl⟩ := hpr
    push_neg at hno
    have hnodup : ([t1, (t1.1, t1.2 + 1), (t1.1, t1.2 + 2)] : List Tile).Nodup := by
      simp [Prod.ext_iff]
    have ht1 : t1 ∈ t1 :: rest := by simp
    refine ⟨by simp, ⟨hno.1, by omega⟩, ?_, ?_, ?_, ?_, ?_⟩
    · intro x hx
      exact head_min hs x (Multiset.mem_coe.mp hx)
    · rw [show groupTiles (GType.chi, t1) = [t1, (t1.1, t1.2 + 1), (t1.1, t1.2 + 2)]
        from rfl]
      rw [Multiset.le_iff_subset (by rwa [Multiset.coe_nodup])]
      intro x hx
      rw [Multiset.mem_coe] at hx
      rw [Multiset.mem_coe]
      simp only [List.mem_cons, List.not_mem_nil, or_false] at hx
      rcases hx with h | h | h
      · exact h ▸ ht1
      · exact h ▸ hm2
      · exact h ▸ hm3
    · rw [show groupTiles (GType.chi, t1) = [t1, (t1.1, t1.2 + 1), (t1.1, t1.2 + 2)]
        from rfl, coe_triple_erase]
    · exact tsorted_erase (tsorted_erase (tsorted_erase hs _) _) _
    · have l1 : ((t1 :: rest).erase t1).length = rest.length := by
        rw [List.erase_cons_head]
      have hne2 : (t1.1, t1.2 + 1) ≠ t1 := by simp [Prod.ext_iff]
      have hne31 : (t1.1, t1.2 + 2) ≠ t1 := by simp [Prod.ext_iff]
      have hne32 : (t1.1, t1.2 + 2) ≠ (t1.1, t1.2 + 1) := by simp [Prod.ext_iff]
      have hm2' : (t1.1, t1.2 + 1) ∈ (t1 :: rest).erase t1 :=
        (List.mem_erase_of_ne hne2).mpr hm2
      have hm3' : (t1.1, t1.2 + 2) ∈ ((t1 :: rest).erase t1).erase (t1.1, t1.2 + 1) :=
        (List.mem_erase_of_ne hne32).mpr ((List.mem_erase_of_ne hne31).mpr hm3)
      rw [List.length_erase_of_mem hm3', List.length_erase_of_mem hm2', l1]
      have hm2l : (t1.1, t1.2 + 1) ∈ rest := by
        rcases List.mem_cons.mp hm2 with h | h
        · exact absurd h hne2
        · exact h
      have hm3l : (t1.1, t1.2 + 2) ∈ rest := by
        rcases List.mem_cons.mp hm3 with h | h
        · exact absurd h hne31
        · exact h
      have h32 : (t1.1, t1.2 + 2) ∈ rest.erase (t1.1, t1.2 + 1) :=
        (List.mem_erase_of_ne hne32).mpr hm3l
      have hl1 : 0 < (rest.erase (t1.1, t1.2 + 1)).length :=
        List.length_pos_of_mem h32
      have hl2 : (rest.erase (t1.1, t1.2 + 1)).length = rest.length - 1 :=
        List.length_erase_of_mem hm2l
      simp only [List.length_cons]
      omega

/-- Completeness of the group generators on sorted input: any non-pair,
well-formed group anchored at the minimum and drawn from the tiles is
produced, with the sorted multiset difference as remainder. -/
theorem begins_complete {ts : List Tile} (hs : TSorted ts) {g : Group}
    (h1 : g.1 ≠ GType.pair) (h2 : chiOK g)
    (h3 : ∀ x ∈ (↑ts : Multiset Tile), tile_le g.2 x = true)
    (h4 : (↑(groupTiles g) : Multiset Tile) ≤ ↑ts) :
    ∃ r, (g, r) ∈ begin_pon ts ++ begin_chi ts
      ∧ (↑r : Multiset Tile) = ↑ts - ↑(groupTiles g) ∧ TSorted r := by
  obtain ⟨gt, t⟩ := g
  cases gt with
  | pair => exact absurd rfl h1
  | pon =>
      rw [show groupTiles (GType.pon, t) = [t, t, t] from rfl] at h4
      obtain ⟨rest, rfl⟩ := sorted_three_head hs
        (fun x hx => h3 x (Multiset.mem_coe.mpr hx)) h4
      refine ⟨rest, ?_, ?_, ?_⟩
      · rw [List.mem_append]
        left
        rw [begin_pon_mem]
        exact ⟨t, rest, rfl, rfl⟩
      · rw [show groupTiles (GType.pon, t) = [t, t, t] from rfl, triple_sub_coe]
      · exact (tsorted_cons.mp (tsorted_cons.mp (tsorted_cons.mp hs).2).2).2
  | chi =>
      have hmemt : t ∈ ts := by
        have ht : t ∈ (↑(groupTiles (GType.chi, t)) : Multiset Tile) := by
          simp [groupTiles]
        exact Multiset.mem_coe.mp (Multiset.mem_of_le h4 ht)
      obtain ⟨rest, rfl⟩ := sorted_mem_head hs hmemt
        (fun x hx => h3 x (Multiset.mem_coe.mpr hx))
      have hm2 : (t.1, t.2 + 1) ∈ t :: rest := by
        have ht : (t.1, t.2 + 1) ∈ (↑(groupTiles (GType.chi, t)) : Multiset Tile) := by
          simp [groupTiles]
        exact Multiset.mem_coe.mp (Multiset.mem_of_le h4 ht)
      have hm3 : (t.1, t.2 + 2) ∈ t :: rest := by
        have ht : (t.1, t.2 + 2) ∈ (↑(groupTiles (GType.chi, t)) : Multiset Tile) := by
          simp [groupTiles]
        exact Multiset.mem_coe.mp (Multiset.mem_of_le h4 ht)
      obtain ⟨hX, h7⟩ := h2
      refine ⟨(((t :: rest).erase t).erase (t.1, t.2 + 1)).erase (t.1, t.2 + 2),
        ?_, ?_, ?_⟩
      · rw [List.mem_append]
        right
        rw [begin_chi_mem]
        exact ⟨t, rest, rfl, by push_neg; exact ⟨hX, by omega⟩, hm2, hm3, rfl⟩
      · rw [show groupTiles (GType.chi, t) = [t, (t.1, t.2 + 1), (t.1, t.2 + 2)]
          from rfl, coe_triple_erase]
      · exact tsorted_erase (tsorted_erase (tsorted_erase hs _) _) _

theorem flatMap_congr {α β : Type} {l : List α} {f g : α → List β}
    (h : ∀ a ∈ l, f a = g a) : l.flatMap f = l.flatMap g := by
  induction l with
  | nil => rfl
  | cons a l ih =>
      rw [List.flatMap_cons, List.flatMap_cons, h a (by simp),
        ih (fun x hx => h x (by simp [hx]))]

/-- Any two sufficient fuels give the same `all_groups_fuel` result. -/
theorem all_groups_fuel_congr :
    ∀ (n fuel1 fuel2 : Nat) (ts : List Tile), ts.length ≤ n → TSorted ts →
      ts.length ≤ fuel1 → ts.length ≤ fuel2 →
      all_groups_fuel fuel1 ts = all_groups_fuel fuel2 ts := by
  intro n
  induction n with
  | zero =>
      intro f1 f2 ts hn _ _ _
      have : ts = [] := List.eq_nil_of_length_eq_zero (Nat.le_zero.mp hn)
      subst this
      cases f1 <;> cases f2 <;> rfl
  | succ n ih =>
      intro f1 f2 ts hn hs h1 h2
      match ts, h1, h2, hn with
      | [], _, _, _ => cases f1 <;> cases f2 <;> rfl
      | t :: l, h1, h2, hn =>
          match f1, f2, h1, h2 with
          | f1 + 1, f2 + 1, h1, h2 =>
              simp only [all_groups_fuel]
              apply flatMap_congr
              intro pr hpr
              obtain ⟨g, r⟩ := pr
              obtain ⟨-, -, -, -, -, hsr, hlr⟩ := begins_sound hs hpr
              simp only [List.length_cons] at hlr hn h1 h2
              rw [ih f1 f2 r (by omega) hsr (by omega) (by omega)]

/-- Enough fuel collapses to `all_groups`. -/
theorem all_groups_fuel_eq (fuel : Nat) (ts : List Tile) (hs : TSorted ts)
    (h : ts.length ≤ fuel) : all_groups_fuel fuel ts = all_groups ts :=
  all_groups_fuel_congr ts.length fuel ts.length ts le_rfl hs h le_rfl

/-- One unfolding step of `all_groups` on sorted input. -/
theorem all_groups_unfold {t : Tile} {l : List Tile} (hs : TSorted (t :: l)) :
    all_groups (t :: l) = (begin_pon (t :: l) ++ begin_chi (t :: l)).flatMap
      (fun pr => (all_groups pr.2).map (fun gs => pr.1 :: gs)) := by
  show all_groups_fuel (t :: l).length (t :: l) = _
  rw [show (t :: l).length = l.length + 1 from rfl]
  simp only [all_groups_fuel]
  apply flatMap_congr
  intro pr hpr
  obtain ⟨g, r⟩ := pr
  obtain ⟨-, -, -, -, -, hsr, hlr⟩ := begins_sound hs hpr
  simp only [List.length_cons] at hlr
  rw [all_groups_fuel_eq l.length r hsr (by omega)]

theorem groupTiles_card {g : Group} (h : g.1 ≠ GType.pair) :
    Multiset.card (↑(groupTiles g) : Multiset Tile) = 3 := by
  obtain ⟨gt, t⟩ := g
  cases gt with
  | pair => exact absurd rfl h
  | pon => simp [groupTiles]
  | chi => simp [groupTiles]

theorem all_groups_mem_nil (gs : List Group) :
    gs ∈ all_groups [] ↔ SpecGroups (↑([] : List Tile)) gs := by
  constructor
  · intro h
    have : gs = [] := by simpa [all_groups, all_groups_fuel] using h
    subst this
    simp [SpecGroups]
  · intro h
    cases gs with
    | nil => simp [all_groups, all_groups_fuel]
    | cons g gs' =>
        exfalso
        obtain ⟨hnp, -, -, hle, -⟩ := h
        have h0 : (↑(groupTiles g) : Multiset Tile) = 0 :=
          Multiset.le_zero.mp (by simpa using hle)
        have := congrArg Multiset.card h0
        rw [groupTiles_card hnp] at this
        simp at this

/-- `all_groups` on sorted input enumerates exactly the spec's group
sequences. -/
theorem all_groups_mem_aux :
    ∀ (n : Nat) (ts : List Tile), ts.length ≤ n → TSorted ts →
      ∀ gs, gs ∈ all_groups ts ↔ SpecGroups (↑ts) gs := by
  intro n
  induction n with
  | zero =>
      intro ts hn _ gs
      have : ts = [] := List.eq_nil_of_length_eq_zero (Nat.le_zero.mp hn)
      subst this
      exact all_groups_mem_nil gs
  | succ n ih =>
      intro ts hn hs gs
      match ts with
      | [] => exact all_groups_mem_nil gs
      | t :: l =>
          rw [all_groups_unfold hs, List.mem_flatMap]
          constructor
          · rintro ⟨pr, hpr, hmem⟩
            rw [List.mem_map] at hmem
            obtain ⟨gs', hgs', rfl⟩ := hmem
            obtain ⟨g, r⟩ := pr
            obtain ⟨hnp, hok, hmin, hle, hrm, hsr, hlr⟩ := begins_sound hs hpr
            simp only [List.length_cons] at hlr hn
            have hspec : SpecGroups (↑r) gs' :=
              (ih r (by omega) hsr gs').mp hgs'
            rw [hrm] at hspec
            exact ⟨hnp, hok, hmin, hle, hspec⟩
          · intro h
            cases gs with
            | nil =>
                exfalso
                have : (↑(t :: l) : Multiset Tile) = 0 := h
                simp [← Multiset.cons_coe] at this
            | cons g gs' =>
                obtain ⟨hnp, hok, hmin, hle, hrest⟩ := h
                obtain ⟨r, hmem, hrm, hsr⟩ := begins_complete hs hnp hok hmin hle
                refine ⟨(g, r), hmem, ?_⟩
                rw [List.mem_map]
                refine ⟨gs', ?_, rfl⟩
                have hcard : r.length + 3 = (t :: l).length := by
                  have hglen : (groupTiles g).length = 3 := by
                    have h := groupTiles_card hnp
                    simpa [Multiset.coe_card] using h
                  have hc := congrArg Multiset.card hrm
                  rw [Multiset.card_sub hle] at hc
                  simp only [Multiset.coe_card] at hc
                  rw [hglen] at hc
                  have h3 : 3 ≤ (t :: l).length := by
                    have h := Multiset.card_le_card hle
                    simp only [Multiset.coe_card] at h
                    omega
                  omega
                simp only [List.length_cons] at hcard hn
                apply (ih r (by omega) hsr gs').mpr
                rw [hrm]
                exact hrest

theorem all_groups_mem {ts : List Tile} (hs : TSorted ts) (gs : List Group) :
    gs ∈ all_groups ts ↔ SpecGroups (↑ts) gs :=
  all_groups_mem_aux ts.length ts le_rfl hs gs

theorem coe_double_erase (ts : List Tile) (v : Tile) :
    (↑((ts.erase v).erase v) : Multiset Tile) = ↑ts - ({v, v} : Multiset Tile) := by
  have h2 : ({v, v} : Multiset Tile) = v ::ₘ v ::ₘ 0 := rfl
  rw [h2, Multiset.sub_cons, Multiset.sub_cons, Multiset.sub_zero,
    Multiset.coe_erase, Multiset.coe_erase, tile_beq_eq]

theorem nodup_flatMap_of {α β : Type} {l : List α} {f : α → List β}
    (h1 : ∀ a ∈ l, (f a).Nodup)
    (h2 : l.Pairwise (fun a b => ∀ x ∈ f a, x ∉ f b)) :
    (l.flatMap f).Nodup := by
  induction l with
  | nil => simp
  | cons a l ih =>
      rw [List.flatMap_cons, List.nodup_append]
      obtain ⟨hpa, hpl⟩ := List.pairwise_cons.mp h2
      refine ⟨h1 a (by simp), ih (fun x hx => h1 x (by simp [hx])) hpl, ?_⟩
      intro x hx hx2
      rw [List.mem_flatMap] at hx2
      obtain ⟨b, hb, hxb⟩ := hx2
      exact hpa b hb x hx hxb

theorem begin_pon_len (ts : List Tile) : (begin_pon ts).length ≤ 1 := by
  match ts with
  | [] => simp [begin_pon]
  | [a] => simp [begin_pon]
  | [a, b] => simp [begin_pon]
  | a :: b :: c :: rest =>
      simp only [begin_pon]
      split_ifs <;> simp

theorem begin_chi_len (ts : List Tile) : (begin_chi ts).length ≤ 1 := by
  match ts with
  | [] => simp [begin_chi]
  | t1 :: rest =>
      simp only [begin_chi]
      split_ifs <;> simp

theorem pairwise_of_len_le_one {α : Type} {l : List α} {P : α → α → Prop}
    (h : l.length ≤ 1) : l.Pairwise P := by
  match l with
  | [] => exact List.Pairwise.nil
  | [a] => simp
  | a :: b :: r => simp at h

theorem all_groups_nodup_aux :
    ∀ (n : Nat) (ts : List Tile), ts.length ≤ n → TSorted ts →
      (all_groups ts).Nodup := by
  intro n
  induction n with
  | zero =>
      intro ts hn _
      have : ts = [] := List.eq_nil_of_length_eq_zero (Nat.le_zero.mp hn)
      subst this
      simp [all_groups, all_groups_fuel]
  | succ n ih =>
      intro ts hn hs
      match ts with
      | [] => simp [all_groups, all_groups_fuel]
      | t :: l =>
          rw [all_groups_unfold hs]
          apply nodup_flatMap_of
          · intro pr hpr
            obtain ⟨g, r⟩ := pr
            obtain ⟨-, -, -, -, -, hsr, hlr⟩ := begins_sound hs hpr
            simp only [List.length_cons] at hlr hn
            apply List.Nodup.map
            · intro x y hxy; simpa using hxy
            · exact ih r (by omega) hsr
          · rw [List.pairwise_append]
            refine ⟨pairwise_of_len_le_one (begin_pon_len _),
              pairwise_of_len_le_one (begin_chi_len _), ?_⟩
            intro a ha b hb x hxa hxb
            obtain ⟨ap, arest, -, ha2⟩ := (begin_pon_mem _ _).mp
              (show (a.1, a.2) ∈ begin_pon (t :: l) from ha)
            obtain ⟨bp, brest, -, -, -, -, hb2⟩ := (begin_chi_mem _ _).mp
              (show (b.1, b.2) ∈ begin_chi (t :: l) from hb)
            rw [List.mem_map] at hxa hxb
            obtain ⟨ga, -, rfl⟩ := hxa
            obtain ⟨gb, -, heq⟩ := hxb
            have hhead : b.1 = a.1 := (List.cons_eq_cons.mp heq).1
            have ha1 : a.1 = (GType.pon, ap) := congrArg Prod.fst ha2
            have hb1 : b.1 = (GType.chi, bp) := congrArg Prod.fst hb2
            rw [ha1, hb1] at hhead
            simp at hhead

theorem decompose_nodup (ts : List Tile) (hs : TSorted ts) :
    (decompose_regular ts).Nodup := by
  unfold decompose_regular
  apply nodup_flatMap_of
  · intro pr hpr
    obtain ⟨v, hpr', hv⟩ := (find_pair_mem ts hs pr).mp hpr
    apply List.Nodup.map
    · intro x y hxy; simpa using hxy
    · have hsr : TSorted pr.2 := by
        rw [hpr']
        exact tsorted_erase (tsorted_erase hs v) v
      exact all_groups_nodup_aux pr.2.length pr.2 le_rfl hsr
  · have hval : List.Pairwise (fun a b => a ≠ b)
        ((find_pair ts).map (fun pr => pr.1.2)) := find_pair_values_nodup ts hs
    rw [List.pairwise_map] at hval
    apply List.Pairwise.imp ?_ hval
    intro p q hne x hxp hxq
    rw [List.mem_map] at hxp hxq
    obtain ⟨gp, -, rfl⟩ := hxp
    obtain ⟨gq, -, heq⟩ := hxq
    have h1 : q.1 = p.1 := (List.cons_eq_cons.mp heq).1
    exact hne (congrArg Prod.snd h1).symm

/-- `decompose_regular` on sorted input enumerates exactly the spec's
decompositions. -/
theorem decompose_mem {ts : List Tile} (hs : TSorted ts) (d : List Group) :
    d ∈ decompose_regular ts ↔ SpecDecomp (↑ts) d := by
  unfold decompose_regular SpecDecomp
  rw [List.mem_flatMap]
  constructor
  · rintro ⟨pr, hpr, hmem⟩
    rw [List.mem_map] at hmem
    obtain ⟨gs', hgs', rfl⟩ := hmem
    obtain ⟨v, hpr', hv⟩ := (find_pair_mem ts hs pr).mp hpr
    subst hpr'
    refine ⟨v, gs', rfl, (two_iff_pair_le v ts).mp hv, ?_⟩
    have hsr : TSorted ((ts.erase v).erase v) := tsorted_erase (tsorted_erase hs v) v
    have h := (all_groups_mem hsr gs').mp (by simpa using hgs')
    rwa [coe_double_erase] at h
  · rintro ⟨v, gs', rfl, hle, hspec⟩
    refine ⟨((GType.pair, v), (ts.erase v).erase v), ?_, ?_⟩
    · exact (find_pair_mem ts hs _).mpr ⟨v, rfl, (two_iff_pair_le v ts).mpr hle⟩
    · rw [List.mem_map]
      refine ⟨gs', ?_, rfl⟩
      have hsr : TSorted ((ts.erase v).erase v) := tsorted_erase (tsorted_erase hs v) v
      apply (all_groups_mem hsr gs').mpr
      rw [coe_double_erase]
      exact hspec

theorem SpecGroups_card :
    ∀ (gs : List Group) (m : Multiset Tile), SpecGroups m gs →
      Multiset.card m = 3 * gs.length := by
  intro gs
  induction gs with
  | nil =>
      intro m h
      rw [show m = 0 from h]
      simp
  | cons g gs ih =>
      intro m h
      obtain ⟨hnp, -, -, hle, hrest⟩ := h
      have h1 := ih _ hrest
      rw [Multiset.card_sub hle, groupTiles_card hnp] at h1
      have h3 := Multiset.card_le_card hle
      rw [groupTiles_card hnp] at h3
      simp only [List.length_cons]
      omega

/-- C2: on a sorted 14-tile hand, `decompose_regular` enumerates exactly
the decompositions of the form `[pair, g1, g2, g3, g4]` in which every
group after the pair is a pon or chi anchored at the lowest remaining tile
(`SpecDecomp`), with no duplicates, and the pair scan skips a position
whose three tiles agree. -/
theorem C2_decompose_exact (ts : List Tile) (hs : TSorted ts)
    (hlen : ts.length = 14) :
    (∀ d, d ∈ decompose_regular ts ↔ SpecDecomp (↑ts) d)
    ∧ (decompose_regular ts).Nodup
    ∧ (∀ d ∈ decompose_regular ts,
        ∃ p g1 g2 g3 g4, d = [(GType.pair, p), g1, g2, g3, g4])
    ∧ (∀ (a : Tile) (rest : List Tile),
        find_pair (a :: a :: a :: rest) =
          (find_pair (a :: a :: rest)).map (fun pr => (pr.1, a :: pr.2))) := by
  refine ⟨fun d => decompose_mem hs d, decompose_nodup ts hs, ?_, find_pair_skip⟩
  intro d hd
  obtain ⟨v, gs', rfl, hle, hspec⟩ := (decompose_mem hs _).mp hd
  have hcard := SpecGroups_card gs' _ hspec
  have h12 : Multiset.card ((↑ts : Multiset Tile) - ({v, v} : Multiset Tile)) = 12 := by
    rw [Multiset.card_sub hle]
    have hvv : Multiset.card ({v, v} : Multiset Tile) = 2 := rfl
    rw [hvv]
    simp [Multiset.coe_card, hlen]
  rw [h12] at hcard
  have hlen4 : gs'.length = 4 := by omega
  match gs', hlen4 with
  | [g1, g2, g3, g4], _ => exact ⟨v, g1, g2, g3, g4, rfl⟩

/-- Witness for C2 at a concrete sorted 14-tile hand. -/
theorem C2_decompose_exact_witness :
    TSorted c6tiles ∧ c6tiles.length = 14
    ∧ ((∀ d, d ∈ decompose_regular c6tiles ↔ SpecDecomp (↑c6tiles) d)
      ∧ (decompose_regular c6tiles).Nodup
      ∧ (∀ d ∈ decompose_regular c6tiles,
          ∃ p g1 g2 g3 g4, d = [(GType.pair, p), g1, g2, g3, g4])
      ∧ (∀ (a : Tile) (rest : List Tile),
          find_pair (a :: a :: a :: rest) =
            (find_pair (a :: a :: rest)).map (fun pr => (pr.1, a :: pr.2)))) :=
  ⟨by decide, by decide, C2_decompose_exact c6tiles (by decide) (by decide)⟩

end Minefield
